import Mathlib

/-!
# KiTools wire-protocol verification

Shallow embedding of the core protocol code of the KiTools repository
(`kitools/kicobs.py`, `kitools/kicmds.py`, `kitools/kiserial.py`,
`kitools/kisniffer.py`, `kitools/kidfu.py`, `kitools/kifwu.py`) and proofs
about it.  Octets are modelled as `Nat` (values `0..255`), byte buffers as
`List Nat`, and each Python method as a pure state-passing function.
Python semantics is transcribed faithfully, including its quirks: in
particular the statement `self = Decoder()` inside `Decoder.decode` only
rebinds a local variable and leaves the object of the caller untouched,
and `CLI2TEXT[(ctype, ccode)]` raises `KeyError` for a missing key.
-/

/-! ## COBS encoder (`kicobs.Encoder`) -/

/-- State of `kicobs.Encoder`: output buffer, current block of data
(non-zero bytes) and current block of zeros. -/
structure Encoder where
  out : List Nat
  data : List Nat
  zeros : List Nat
deriving DecidableEq

/-- Fresh encoder, as built by `Encoder.__init__`. -/
def Encoder.init : Encoder := ⟨[], [], []⟩

/-- Transcription of `Encoder._enc_step(code, dlen, zlen)`:
`out += [code] + data[:dlen]; data = data[dlen:]; zeros = zeros[zlen:]`. -/
def Encoder.encStep (e : Encoder) (code dlen zlen : Nat) : Encoder :=
  ⟨e.out ++ code :: e.data.take dlen, e.data.drop dlen, e.zeros.drop zlen⟩

/-- The loop `while len(self.data) >= 0xcf: self._enc_step(0xd0, 0xd0 - 1, 0)`
(long data blocks, no implicit trailing zero). -/
def Encoder.encLongLoop (e : Encoder) : Encoder :=
  if h : 0xcf ≤ e.data.length then
    Encoder.encLongLoop (e.encStep 0xd0 (0xd0 - 1) 0)
  else e
termination_by e.data.length
decreasing_by
  simp only [Encoder.encStep, List.length_drop]
  omega

/-- The loop `while len(self.zeros) > 15 and len(self.data) is 0:
self._enc_step(0xdf, 0, 15)` (runs of fifteen zeros). -/
def Encoder.zRunLoop (e : Encoder) : Encoder :=
  if h : 15 < e.zeros.length ∧ e.data.length = 0 then
    Encoder.zRunLoop (e.encStep 0xdf 0 15)
  else e
termination_by e.zeros.length
decreasing_by
  simp only [Encoder.encStep, List.length_drop]
  omega

/-- The loop `while self.zeros: self._enc_step(len(self.data) + 1,
len(self.data), 1)` (data bytes plus implicit trailing zero). -/
def Encoder.tailLoop (e : Encoder) : Encoder :=
  if h : e.zeros ≠ [] then
    Encoder.tailLoop (e.encStep (e.data.length + 1) e.data.length 1)
  else e
termination_by e.zeros.length
decreasing_by
  simp only [Encoder.encStep, List.length_drop]
  have hz := List.length_pos.mpr h
  omega

/-- Body of the `else` (zeros block) branch of `Encoder.encode`: the four
emission rules applied in source order once a block of zeros has arrived. -/
def Encoder.processZeros (e : Encoder) : Encoder :=
  let e1 := e.encLongLoop
  let e2 := if 1 < e1.zeros.length ∧ e1.data.length ≤ 0x1e then
    e1.encStep (0xe0 + e1.data.length) e1.data.length 2 else e1
  let e3 := e2.zRunLoop
  let e4 := if 2 < e3.zeros.length ∧ e3.data.length = 0 then
    e3.encStep (0xd0 + e3.zeros.length) 0 e3.zeros.length else e3
  e4.tailLoop

/-- Transcription of `itertools.groupby(bytes, lambda x: x is 0)`: the list
of maximal runs, each tagged with whether it is a run of zeros. -/
def groupsByZero (l : List Nat) : List (Bool × List Nat) :=
  match l with
  | [] => []
  | x :: xs =>
    let key := x == 0
    (key, (x :: xs).takeWhile (fun y => (y == 0) == key)) ::
      groupsByZero ((x :: xs).dropWhile (fun y => (y == 0) == key))
termination_by l.length
decreasing_by
  simp only [List.dropWhile_cons]
  have hx : ((x == 0) == (x == 0)) = true := by simp
  simp only [hx, if_true]
  have := (List.dropWhile_suffix
    (l := xs) (fun y => (y == 0) == (x == 0))).length_le
  simp only [List.length_cons]
  omega

/-- One iteration of the `for block in blocks:` loop of `Encoder.encode`:
a block of non-zero bytes is stored into `self.data`, a block of zeros is
stored into `self.zeros` and triggers the emission rules. -/
def Encoder.encodeStep (e : Encoder) (blk : Bool × List Nat) : Encoder :=
  if blk.1 then Encoder.processZeros { e with zeros := blk.2 }
  else { e with data := blk.2 }

/-- Transcription of `Encoder.encode(data)`: iterate over the groups of
`data + bytearray(1)`. -/
def Encoder.encode (e : Encoder) (data : List Nat) : Encoder :=
  (groupsByZero (data ++ [0])).foldl Encoder.encodeStep e

/-- Transcription of `Encoder.get_data()`: the encoded data preceded by a
single framing zero. -/
def Encoder.get_data (e : Encoder) : List Nat := 0 :: e.out

/-! ## COBS decoder (`kicobs.Decoder`) -/

/-- State of `kicobs.Decoder`: input log, output buffer, count of literal
bytes still expected, count of zeros to append once the literals are
consumed, and the reconstructed message length (`None` until the first two
output bytes are available). -/
structure Decoder where
  inc : List Nat
  out : List Nat
  remaining : Nat
  zeros : Nat
  len? : Option Nat
deriving DecidableEq

/-- Fresh decoder, as built by `Decoder.__init__`. -/
def Decoder.init : Decoder := ⟨[], [], 0, 0, none⟩

/-- Big-endian unsigned 16-bit read of the first two list entries,
transcription of `struct.unpack(">H", out[:2])[0]`. -/
def be16 (l : List Nat) : Nat := 256 * l.getD 0 0 + l.getD 1 0

/-- The trailing phases of `Decoder.decode`, executed after the code/data
analysis on every call: append the pending zeros when no literal byte
remains, then extract the message length from the first two output bytes,
or check whether the output has exceeded the message length and finish. -/
def Decoder.phases (d : Decoder) (ret : Int) : Decoder × Int :=
  let d1 := if d.remaining = 0 then
    { d with out := d.out ++ List.replicate d.zeros 0, zeros := 0 } else d
  match d1.len? with
  | none =>
    if 2 ≤ d1.out.length then
      ({ d1 with len? := some (be16 d1.out + 5) }, ret)
    else (d1, ret)
  | some n =>
    if n < d1.out.length then ({ d1 with out := d1.out.dropLast }, (n : Int))
    else (d1, ret)

/-- Transcription of `Decoder.decode(byte)`.  Returns the updated decoder
and the return value: `0` still decoding, positive the decoded length,
negative an error.  In the `byte == 0` case the Python source executes
`self = Decoder()`, which rebinds a local name only: the remaining phases
run on the discarded fresh object and the caller keeps every field of the
old state except the input log. -/
def Decoder.decode (d0 : Decoder) (byte : Nat) : Decoder × Int :=
  let d := { d0 with inc := d0.inc ++ [byte] }
  if d.remaining = 0 then
    if 0xff ≤ byte then d.phases (-1)
    else if 0xe0 ≤ byte then
      ({ d with remaining := byte - 0xe0, zeros := 2 }).phases 0
    else if 0xd2 < byte then ({ d with zeros := byte - 0xd0 }).phases 0
    else if 0xd0 < byte then d.phases (-1)
    else if byte = 0xd0 then ({ d with remaining := byte - 1 }).phases 0
    else if 0 < byte then
      ({ d with remaining := byte - 1, zeros := 1 }).phases 0
    else (d, (Decoder.init.phases 0).2)
  else ({ d with out := d.out ++ [byte], remaining := d.remaining - 1 }).phases 0

/-- Transcription of `Decoder.get_data()`. -/
def Decoder.get_data (d : Decoder) : List Nat := d.out

/-- Feed bytes one at a time until `decode` returns a non-zero value, the
loop the callers of the decoder run (`while size is 0` in
`KiSerial.kbi_cmd`); returns the decoder at that point together with the
final return value (`0` when the input ran out first). -/
def decodeUntil (d : Decoder) : List Nat → Decoder × Int
  | [] => (d, 0)
  | b :: bs =>
    let r := d.decode b
    if r.2 = 0 then decodeUntil r.1 bs else r

/-! ## KBI codec (`kicmds`) -/

/-- Command type constants of `kicmds`. -/
def CT_CMD : Nat := 0x40

/-- Response-to-command type constant of `kicmds`. -/
def CT_RSC : Nat := 0x80

/-- Response-to-golden-command type constant of `kicmds`. -/
def CT_RSG : Nat := 0x90

/-- Notification type constant of `kicmds`. -/
def CT_NTF : Nat := 0xc0

/-- Response code `RC_OK` of `kicmds`. -/
def RC_OK : Nat := 0x00

/-- Response code `RC_VALUE` of `kicmds`. -/
def RC_VALUE : Nat := 0x01

/-- Response code `RC_BADPAR` of `kicmds`. -/
def RC_BADPAR : Nat := 0x02

/-- Response code `RC_BADCOM` of `kicmds`. -/
def RC_BADCOM : Nat := 0x03

/-- Response code `RC_NOTALL` of `kicmds`. -/
def RC_NOTALL : Nat := 0x04

/-- Response code `RC_MEMERR` of `kicmds`. -/
def RC_MEMERR : Nat := 0x05

/-- Response code `RC_CFGERR` of `kicmds`. -/
def RC_CFGERR : Nat := 0x06

/-- Response code `RC_FWUERR` of `kicmds`. -/
def RC_FWUERR : Nat := 0x07

/-- Python exceptions surfacing in the modelled code paths. -/
inductive PyErr where
  | keyError
  | attributeError
  | structError
  | argumentTypeError
deriving DecidableEq

/-- Transcription of `functools.reduce(operator.xor, l)`: left fold of xor
over a non-empty byte sequence.  Python raises `TypeError` on an empty
sequence; that case is unreachable in the modelled call sites and is mapped
to `0` here. -/
def reduceXor : List Nat → Nat
  | [] => 0
  | x :: xs => xs.foldl Nat.xor x

/-- Representation of `kicmds.KBICommand`: the validity flag and the frame
buffer `len_hi len_lo type code xor payload...`. -/
structure KBICommand where
  valid : Bool
  data : List Nat
deriving DecidableEq

/-- Transcription of `KBICommand.__init__` for the binary path
(`txt_cmd = None`): when both type and code are given, the frame is
`bytearray(5) + payload` with the header packed in place; the checksum is
packed last, computed over the buffer whose checksum slot still holds `0`.
`struct.pack_into` would raise for a payload longer than `0xffff` octets or
type/code above `0xff`; the claims quantify below those bounds. -/
def KBICommand.make (ctype? ccode? : Option Nat) (cpload : List Nat) :
    KBICommand :=
  match ctype?, ccode? with
  | some t, some c =>
    let d := ([0, 0, 0, 0, 0] : List Nat) ++ cpload
    let d := (((d.set 0 (cpload.length / 256)).set 1
      (cpload.length % 256)).set 2 t).set 3 c
    { valid := true, data := d.set 4 (reduceXor d) }
  | _, _ => { valid := false, data := [0, 0, 0, 0, 0] }

/-- Transcription of `KBICommand.get_type`. -/
def KBICommand.get_type (k : KBICommand) : Nat := k.data.getD 2 0

/-- Transcription of `KBICommand.get_code`. -/
def KBICommand.get_code (k : KBICommand) : Nat := k.data.getD 3 0

/-- Transcription of `KBICommand.get_payload`. -/
def KBICommand.get_payload (k : KBICommand) : List Nat := k.data.drop 5

/-- Representation of `kicmds.KBIResponse` (subclass of `KBICommand`). -/
structure KBIResponse where
  valid : Bool
  data : List Nat
deriving DecidableEq

/-- Transcription of `KBIResponse.__init__(response, size)`: valid iff
`size > 4`, the xor of `data[:4] + data[5:size]` equals `data[4]`, and the
declared big-endian length equals `size - 5`.  The source compares with
`is`, which CPython satisfies for equal small integers. -/
def KBIResponse.make (response : List Nat) (size : Int) : KBIResponse :=
  { data := response,
    valid := decide (4 < size) &&
      (reduceXor (response.take 4 ++ (response.drop 5).take (size - 5).toNat)
        == response.getD 4 0) &&
      ((be16 response : Int) == size - 5) }

/-- `KBIResponse.get_type`, inherited from `KBICommand`. -/
def KBIResponse.get_type (r : KBIResponse) : Nat := r.data.getD 2 0

/-- `KBIResponse.get_code`, inherited from `KBICommand`. -/
def KBIResponse.get_code (r : KBIResponse) : Nat := r.data.getD 3 0

/-- `KBIResponse.get_payload`, inherited from `KBICommand`. -/
def KBIResponse.get_payload (r : KBIResponse) : List Nat := r.data.drop 5

/-- Transcription of `KBIResponse.is_notification`. -/
def KBIResponse.is_notification (r : KBIResponse) : Bool :=
  (r.get_type &&& CT_NTF) == CT_NTF

/-- The key-to-name part of the `kicmds.CLI2TEXT` printer table: every key
`(type, code)` of the source dictionary together with the label in the
first entry of its value list.  The pretty-printing closure in the second
entry is abstracted by the `fmt` parameter of `kbi_to_text`. -/
def CLI2TEXT : List ((Nat × Nat) × String) :=
  [((0x81, 0x42), "uptime"), ((0x81, 0x44), "autojoin"),
   ((0x81, 0x45), "status"), ((0x81, 0x09), "socket"),
   ((0x81, 0x51), "panid"), ((0x81, 0x4a), "swver"),
   ((0x81, 0x4b), "hwver"), ((0x81, 0x4c), "snum"),
   ((0x81, 0x4d), "emac"), ((0x81, 0x4e), "eui64"),
   ((0x81, 0x4f), "lowpower"), ((0x81, 0x50), "txpower"),
   ((0x81, 0x52), "channel"), ((0x81, 0x53), "xpanid"),
   ((0x81, 0x54), "netname"), ((0x81, 0x55), "mkey"),
   ((0x81, 0x56), "commcred"), ((0x81, 0x57), "joincred"),
   ((0x81, 0x58), "joiner"), ((0x81, 0x59), "role"),
   ((0x81, 0x5a), "rloc16"), ((0x81, 0x5c), "mlprefix"),
   ((0x81, 0x5d), "maxchild"), ((0x81, 0x5e), "timeout"),
   ((0x81, 0x5f), "xpanfilt"), ((0x81, 0x60), "ipaddr"),
   ((0x81, 0x62), "heui64"), ((0x81, 0x63), "pollrate"),
   ((0x81, 0x68), "parent"), ((0x81, 0x69), "routert"),
   ((0x81, 0x6a), "ldrdata"), ((0x81, 0x6b), "netdata"),
   ((0x81, 0x6c), "stats"), ((0x81, 0x6d), "childt"),
   ((0x81, 0x70), "hwmode"), ((0x81, 0x71), "led"),
   ((0x81, 0x72), "vname"), ((0x81, 0x73), "vmodel"),
   ((0x81, 0x74), "vdata"), ((0x81, 0x75), "vswver"),
   ((0x81, 0x76), "actstamp"), ((0x81, 0x79), "services"),
   ((0x91, 0x41), "commsid"), ((0x91, 0x4b), "kseqcounter")]

/-- Transcription of `kicmds.kbi_to_text(ctype, ccode, payload)`.  The
pretty-printers stored in `CLI2TEXT` are abstracted by `fmt`.  The first
condition keeps the Python operator precedence
`A or (B and payload is None)`.  In the VALUE branch the source indexes the
dictionary directly (`CLI2TEXT[(ctype, ccode)] or None`), so a missing key
raises `KeyError` before the `or None` could produce a falsy value: the
`else` branch returning the fallback string is unreachable. -/
def kbi_to_text (fmt : Nat × Nat → Option (List Nat) → String)
    (ctype ccode : Nat) (payload : Option (List Nat)) : Except PyErr String :=
  if ctype = (CT_RSC ||| RC_OK) ∨
      (ctype = (CT_RSG ||| RC_OK) ∧ payload = none) then
    .ok ""
  else if ctype = (CT_RSC ||| RC_VALUE) ∨ ctype = (CT_RSG ||| RC_VALUE) then
    match (CLI2TEXT.lookup (ctype, ccode)) with
    | some _entry => .ok (fmt (ctype, ccode) payload)
    | none => .error .keyError
  else if ctype = (CT_RSC ||| RC_BADPAR) ∨ ctype = (CT_RSG ||| RC_BADPAR) then
    .ok "Bad parameter"
  else if ctype = (CT_RSC ||| RC_BADCOM) ∨ ctype = (CT_RSG ||| RC_BADCOM) then
    .ok "Bad command"
  else if ctype = (CT_RSC ||| RC_NOTALL) ∨ ctype = (CT_RSG ||| RC_NOTALL) then
    .ok "Command not allowed"
  else if ctype = (CT_RSC ||| RC_MEMERR) ∨ ctype = (CT_RSG ||| RC_MEMERR) then
    .ok "Memory allocation error"
  else if ctype = (CT_RSC ||| RC_CFGERR) ∨ ctype = (CT_RSG ||| RC_CFGERR) then
    .ok "Configuration conflict error"
  else if ctype = (CT_RSC ||| RC_FWUERR) ∨ ctype = (CT_RSG ||| RC_FWUERR) then
    .ok "Firmware update error"
  else .ok "Unknown error"

/-! ## Threaded transport reader (`kiserial.KiSerialTh._reader`, KBI mode) -/

/-- Observable deliveries of the reader loop: a valid notification printed
to the log channel (`debug.print_(KiDebug.LOGS, ...)`), or a put into the
response queue (`read_queue.put`), carrying either a valid response or the
`None` marker used for decode errors. -/
inductive ReaderEvent where
  | logNotif (r : KBIResponse)
  | queuePut (r : Option KBIResponse)
deriving DecidableEq

/-- One iteration of the per-byte body of `KiSerialTh._reader` in KBI mode:
feed the byte to the COBS decoder; on a non-zero size build a
`KBIResponse` from the decoder output, dispatch it (valid notifications to
the log channel, other valid frames to the response queue, anything else as
a `None` put), and start a fresh decoder. -/
def readerStep (dec : Decoder) (byte : Nat) : Decoder × List ReaderEvent :=
  let s := dec.decode byte
  if s.2 ≠ 0 then
    let rsp := KBIResponse.make s.1.get_data s.2
    if rsp.valid then
      if rsp.is_notification then (Decoder.init, [.logNotif rsp])
      else (Decoder.init, [.queuePut (some rsp)])
    else (Decoder.init, [.queuePut none])
  else (s.1, [])

/-- The reader loop over a stream of received bytes, accumulating the
delivered events in order. -/
def readerRun (dec : Decoder) : List Nat → Decoder × List ReaderEvent
  | [] => (dec, [])
  | b :: bs =>
    let s := readerStep dec b
    let t := readerRun s.1 bs
    (t.1, s.2 ++ t.2)

/-! ## Sniffer channel control (`kisniffer.KiSniffer.set_channel`) -/

/-- The `KiSniffer` state touched by `set_channel`: the capture flag and the
stored channel (`0` after `__init__`).  Python integers are unbounded, so
the channel argument is an `Int`. -/
structure KiSniffer where
  is_running : Bool
  channel : Int
deriving DecidableEq

/-- Transcription of `KiSniffer.set_channel(channel)`: when capture is not
running and `channel in range(11, 27)`, record the channel and issue
`config channel <n>` through the serial device; otherwise only an optional
debug message is printed and nothing changes.  The returned list holds the
commands sent to the device. -/
def KiSniffer.set_channel (s : KiSniffer) (channel : Int) :
    KiSniffer × List String :=
  if ¬ s.is_running then
    if 11 ≤ channel ∧ channel < 27 then
      ({ s with channel := channel }, ["config channel " ++ toString channel])
    else (s, [])
  else (s, [])

/-! ## DFU file parsing (`kidfu.DfuFile`) -/

/-- Little-endian unsigned 16-bit read at offset `i`. -/
def le16 (l : List Nat) (i : Nat) : Nat := l.getD i 0 + 256 * l.getD (i + 1) 0

/-- The result of a successful `DfuFile.__init__`: the firmware image body
and the `dev_info` fields kept after `signature`, `length` and `crc` are
deleted from the parsed suffix. -/
structure DfuFile where
  data : List Nat
  fwVersion : Nat
  pid : Nat
  vid : Nat
  dfuSpec : Nat
deriving DecidableEq

/-- Transcription of the parsing part of `DfuFile.__init__` on the bytes of
an opened file: `data = file_data[:-16]`, the 16-byte suffix is unpacked as
little-endian `<HHHH3sBL>` (raising `struct.error` when fewer than 16 bytes
are available, which happens exactly when the file is shorter than 16
bytes), and a signature other than `b"UFD"` raises
`argparse.ArgumentTypeError`.  Python slices `[:-16]` and `[-16:]` on a
short list behave as `take (n - 16)` and `drop (n - 16)` with truncated
subtraction. -/
def DfuFile.parse (file_data : List Nat) : Except PyErr DfuFile :=
  let data := file_data.take (file_data.length - 16)
  let suffix := file_data.drop (file_data.length - 16)
  if suffix.length ≠ 16 then .error .structError
  else if (suffix.drop 8).take 3 ≠ [0x55, 0x46, 0x44] then
    .error .argumentTypeError
  else .ok { data := data, fwVersion := le16 suffix 0, pid := le16 suffix 2,
             vid := le16 suffix 4, dfuSpec := le16 suffix 6 }

/-! ## KBI flash worker (`kifwu.kbi_flash`) -/

/-- The module-level integer constants defined by `kicmds`, as a
name-to-value map modelling `getattr` on the module.  `FT_CMD`,
`CMD_FW_UP` and `FT_RSP`, referenced by `kifwu.kbi_flash`, are absent. -/
def kicmdsConsts : List (String × Nat) :=
  [("CT_CMD", 0x40), ("CT_GOL", 0x50), ("CT_RSC", 0x80), ("CT_RSG", 0x90),
   ("CT_NTF", 0xc0),
   ("OP_WRITE", 0x00), ("OP_EXEC", 0x00), ("OP_READ", 0x40), ("OP_DEL", 0x80),
   ("RC_OK", 0x00), ("RC_VALUE", 0x01), ("RC_BADPAR", 0x02),
   ("RC_BADCOM", 0x03), ("RC_NOTALL", 0x04), ("RC_MEMERR", 0x05),
   ("RC_CFGERR", 0x06), ("RC_FWUERR", 0x07),
   ("NC_PINGR", 0x00), ("NC_UDP", 0x01), ("NC_DSTUN", 0x04),
   ("NC_PINGR_N", 0x05), ("NC_UDP_N", 0x06)]

/-- Attribute lookup `kicmds.<name>`; `none` models the `AttributeError`
raised for a name the module does not define. -/
def kicmdsAttr (name : String) : Option Nat := kicmdsConsts.lookup name

/-- Observable actions of a KBI flash worker: opening the serial port,
one `dev.kbi_cmd` transmission of a block, the five-second retry sleep,
the final `reset` shell command, and a put into the shared outcome queue. -/
inductive FlashEv where
  | openPort
  | sendBlock (bnum : Nat)
  | sleep5
  | resetCmd
  | put (msg : String)
deriving DecidableEq

/-- Result of the per-block retry loop of `kbi_flash`. -/
inductive RetryRes where
  | success
  | fwuError
  | exhausted
  | pyRaise
deriving DecidableEq

/-- Transcription of the retry loop `while retries:` of `kifwu.kbi_flash`
for one block.  `rsp?` gives the outcome of `dev.kbi_cmd` for each attempt;
`none` models a timeout or COBS error, in which case `kbi_cmd` returned
`None` and the subsequent `kbi_rsp.is_valid()` raises `AttributeError`.
A valid response of type `crsp_err` is fatal; a valid response of type
`crsp_val` with at least two payload octets, the request opcode and the
echoed block index breaks out; anything else sleeps five seconds and
consumes one retry. -/
def flashRetry (rsp? : Nat → Option KBIResponse)
    (ccode crsp_val crsp_err bnum : Nat) :
    Nat → Nat → List FlashEv × RetryRes
  | 0, _ => ([], .exhausted)
  | retries + 1, att =>
    match rsp? att with
    | none => ([.sendBlock bnum], .pyRaise)
    | some rsp =>
      if rsp.valid then
        if rsp.get_type = crsp_err then ([.sendBlock bnum], .fwuError)
        else if rsp.get_type = crsp_val ∧ 2 ≤ rsp.get_payload.length ∧
            rsp.get_code = ccode ∧ be16 rsp.get_payload = bnum then
          ([.sendBlock bnum], .success)
        else
          let t := flashRetry rsp? ccode crsp_val crsp_err bnum retries (att + 1)
          (.sendBlock bnum :: .sleep5 :: t.1, t.2)
      else
        let t := flashRetry rsp? ccode crsp_val crsp_err bnum retries (att + 1)
        (.sendBlock bnum :: .sleep5 :: t.1, t.2)

/-- The 64-octet block split
`[dfu_file.data[i:i+64] for i in range(0, len(dfu_file.data), 64)]`. -/
def chunks64 (l : List Nat) : List (List Nat) :=
  match l with
  | [] => []
  | x :: xs => ((x :: xs).take 64) :: chunks64 ((x :: xs).drop 64)
termination_by l.length
decreasing_by
  simp only [List.length_drop, List.length_cons]
  omega

/-- The `for bnum, block in enumerate(blocks):` loop of `kbi_flash`, with
the post-loop `reset` command and `OK` outcome.  Returns the emitted events
and the exception escaping the loop body, if any (to be caught by the
worker's handler). -/
def flashBlocks (rsp? : Nat → Nat → Option KBIResponse) (snum : String)
    (ccode crsp_val crsp_err : Nat) :
    List (List Nat) → Nat → List FlashEv × Option PyErr
  | [], _ => ([.resetCmd, .put (snum ++ ": OK")], none)
  | _block :: rest, bnum =>
    let r := flashRetry (rsp? bnum) ccode crsp_val crsp_err bnum 5 0
    match r.2 with
    | .success =>
      let t := flashBlocks rsp? snum ccode crsp_val crsp_err rest (bnum + 1)
      (r.1 ++ t.1, t.2)
    | .fwuError => (r.1 ++ [.put (snum ++ ": FWU error")], none)
    | .exhausted =>
      (r.1 ++ [.put (snum ++ ": Could not send block #" ++ toString bnum ++
        " after 5 retries.")], none)
    | .pyRaise => (r.1, some .attributeError)

/-- Transcription of `kifwu.kbi_flash(kidev, dfu_file, queue)`.  The four
constant lookups `kicmds.FT_CMD`, `kicmds.CMD_FW_UP`,
`kicmds.FT_RSP | kicmds.RC_VALUE` and `kicmds.FT_RSP | kicmds.RC_FWUERR`
are evaluated before the `try:` block, so an `AttributeError` raised there
escapes the worker uncaught with nothing emitted.  Inside the `try:` the
serial port is opened, the blocks are sent with the retry loop, and any
exception is converted into a `Serial error` outcome.  Returns the
exception escaping the worker (if any) together with the events emitted. -/
def kbi_flash (snum : String) (dfu_data : List Nat)
    (rsp? : Nat → Nat → Option KBIResponse) : Option PyErr × List FlashEv :=
  match kicmdsAttr "FT_CMD" with
  | none => (some .attributeError, [])
  | some _ctype =>
    match kicmdsAttr "CMD_FW_UP" with
    | none => (some .attributeError, [])
    | some ccode =>
      match kicmdsAttr "FT_RSP", kicmdsAttr "RC_VALUE",
          kicmdsAttr "RC_FWUERR" with
      | some ftRsp, some rcValue, some rcFwuerr =>
        let crsp_val := ftRsp ||| rcValue
        let crsp_err := ftRsp ||| rcFwuerr
        let body := flashBlocks rsp? snum ccode crsp_val crsp_err
          (chunks64 dfu_data) 0
        match body.2 with
        | none => (none, .openPort :: body.1)
        | some _e =>
          (none, .openPort :: body.1 ++ [.put (snum ++ ": Serial error")])
      | _, _, _ => (some .attributeError, [])

/-! ## Code units: a framework for the COBS correctness proof -/

/-- A COBS code unit as emitted by the encoder: the code byte together
with its literal bytes.  `long` is the `0xD0` long data block (its
`0xCF` literal bytes, no implied zero), `withTwo` the `0xE0 + n` block
(data plus two zeros), `run z` the `0xD0 + z` zero run, and `tail` the
`n + 1` block (data plus one implied zero). -/
inductive CUnit where
  | long (chunk : List Nat)
  | withTwo (data : List Nat)
  | run (z : Nat)
  | tail (data : List Nat)
deriving DecidableEq

/-- The encoded bytes of a code unit. -/
def CUnit.bytes : CUnit → List Nat
  | .long c => 0xd0 :: c
  | .withTwo d => (0xe0 + d.length) :: d
  | .run z => [0xd0 + z]
  | .tail d => (d.length + 1) :: d

/-- The octets a code unit expands to when decoded. -/
def CUnit.expand : CUnit → List Nat
  | .long c => c
  | .withTwo d => d ++ [0, 0]
  | .run z => List.replicate z 0
  | .tail d => d ++ [0]

/-- Well-formedness of a code unit, as guaranteed by the encoder and
required by the decoder: the literal counts fit the code ranges. -/
def CUnit.WF : CUnit → Prop
  | .long c => c.length = 0xcf
  | .withTwo d => d.length ≤ 0x1e
  | .run z => 3 ≤ z ∧ z ≤ 15
  | .tail d => d.length ≤ 0xce

/-- Whether a unit is a zero-run code (`0xD3..0xDF`). -/
def CUnit.isRun : CUnit → Bool
  | .run _ => true
  | _ => false

/-- Every zero-run unit in the list is preceded by at least two octets of
expansion (counting from `base` octets already decoded).  The encoder
guarantees this because a run is always emitted after the `0xE0 + n` code
of the same zeros block; the decoder needs it to have extracted the
message length before a run can complete the frame. -/
def RunsGuarded (base : Nat) (us : List CUnit) : Prop :=
  ∀ us₁ u us₂, us = us₁ ++ u :: us₂ → u.isRun = true →
    2 ≤ base + (us₁.flatMap CUnit.expand).length

/-- The decoder state at a code boundary, after having reconstructed the
octets `O` of the frame `S`: nothing pending and the message length
extracted as soon as two octets are out. -/
def DecInv (S O : List Nat) (d : Decoder) : Prop :=
  d.out = O ∧ d.remaining = 0 ∧ d.zeros = 0 ∧
  d.len? = if 2 ≤ O.length then some S.length else none

/-! ## Theorems for the frame codec, printer, sniffer, DFU and flash claims -/

/-- C2: for type byte `t`, code byte `c` and payload `p` with
`|p| <= 0xffff`, the frame built by `KBICommand` is the big-endian length,
`t`, `c` and a checksum octet equal to the xor of all other frame octets,
followed by `p`; parsing it back with `KBIResponse` at size `5 + |p|`
yields a valid response with the same type, code and payload. -/
theorem kbicommand_build_parse_roundtrip (t c : Nat) (p : List Nat)
    (ht : t < 256) (hc : c < 256) (hp : p.length ≤ 0xffff)
    (hb : ∀ b ∈ p, b < 256) :
    (KBICommand.make (some t) (some c) p).valid = true ∧
    (KBICommand.make (some t) (some c) p).data =
      [p.length / 256, p.length % 256, t, c,
        reduceXor ([p.length / 256, p.length % 256, t, c] ++ p)] ++ p ∧
    (KBIResponse.make (KBICommand.make (some t) (some c) p).data
      ((5 + p.length : Nat) : Int)).valid = true ∧
    (KBIResponse.make (KBICommand.make (some t) (some c) p).data
      ((5 + p.length : Nat) : Int)).get_type = t ∧
    (KBIResponse.make (KBICommand.make (some t) (some c) p).data
      ((5 + p.length : Nat) : Int)).get_code = c ∧
    (KBIResponse.make (KBICommand.make (some t) (some c) p).data
      ((5 + p.length : Nat) : Int)).get_payload = p := by
  have hdata : (KBICommand.make (some t) (some c) p).data =
      [p.length / 256, p.length % 256, t, c,
        reduceXor ([p.length / 256, p.length % 256, t, c] ++ p)] ++ p := by
    show (((((([0,0,0,0,0] : List Nat) ++ p).set 0 (p.length / 256)).set 1
      (p.length % 256)).set 2 t).set 3 c).set 4
        (reduceXor (((((([0,0,0,0,0] : List Nat) ++ p).set 0
          (p.length / 256)).set 1 (p.length % 256)).set 2 t).set 3 c)) = _
    have hx0 : ∀ x : Nat, Nat.xor x 0 = x := fun x => Nat.xor_zero x
    simp [List.set, reduceXor, hx0]
  refine ⟨rfl, hdata, ?_, ?_, ?_, ?_⟩
  · have h2 : (((5 + p.length : Nat) : Int) - 5).toNat = p.length := by
      omega
    simp only [KBIResponse.make, hdata, h2, List.cons_append,
      List.nil_append, List.take_succ_cons, List.take_zero,
      List.drop_succ_cons, List.drop_zero, List.take_length,
      List.getD_cons_succ, List.getD_cons_zero]
    rw [Bool.and_eq_true, Bool.and_eq_true]
    refine ⟨⟨?_, by simp⟩, ?_⟩
    · simp only [decide_eq_true_eq]
      push_cast
      omega
    · simp only [be16, List.getD_cons_succ, List.getD_cons_zero,
        beq_iff_eq]
      push_cast
      omega
  · simp [KBIResponse.make, KBIResponse.get_type, hdata, List.getD]
  · simp [KBIResponse.make, KBIResponse.get_code, hdata, List.getD]
  · simp [KBIResponse.make, KBIResponse.get_payload, hdata]

/-- Witness for C2 at `t = 0x40`, `c = 0x52`, `p = [0x0f]`
(the `config channel 15` request). -/
theorem kbicommand_build_parse_roundtrip_witness :
    (0x40 : Nat) < 256 ∧ (0x52 : Nat) < 256 ∧
    ([0x0f] : List Nat).length ≤ 0xffff ∧ (∀ b ∈ ([0x0f] : List Nat), b < 256) ∧
    ((KBICommand.make (some 0x40) (some 0x52) [0x0f]).valid = true ∧
    (KBICommand.make (some 0x40) (some 0x52) [0x0f]).data =
      [([0x0f] : List Nat).length / 256, ([0x0f] : List Nat).length % 256,
        0x40, 0x52, reduceXor ([([0x0f] : List Nat).length / 256,
          ([0x0f] : List Nat).length % 256, 0x40, 0x52] ++ [0x0f])] ++ [0x0f] ∧
    (KBIResponse.make (KBICommand.make (some 0x40) (some 0x52) [0x0f]).data
      ((5 + ([0x0f] : List Nat).length : Nat) : Int)).valid = true ∧
    (KBIResponse.make (KBICommand.make (some 0x40) (some 0x52) [0x0f]).data
      ((5 + ([0x0f] : List Nat).length : Nat) : Int)).get_type = 0x40 ∧
    (KBIResponse.make (KBICommand.make (some 0x40) (some 0x52) [0x0f]).data
      ((5 + ([0x0f] : List Nat).length : Nat) : Int)).get_code = 0x52 ∧
    (KBIResponse.make (KBICommand.make (some 0x40) (some 0x52) [0x0f]).data
      ((5 + ([0x0f] : List Nat).length : Nat) : Int)).get_payload = [0x0f]) :=
  ⟨by decide, by decide, by decide, by decide,
    kbicommand_build_parse_roundtrip 0x40 0x52 [0x0f]
      (by decide) (by decide) (by decide) (by decide)⟩

/-- C3 (code behaviour at the failing input): after decoding the bytes
`[0x02, 0x05]` the decoder holds `out = [5, 0]` and an extracted length;
receiving the delimiter `0x00` with no literal bytes pending leaves every
field except the input log unchanged (the source statement
`self = Decoder()` rebinds a local name only), instead of resetting the
state. -/
theorem decoder_delimiter_does_not_reset :
    (((Decoder.init.decode 2).1.decode 5).1.decode 0).1 =
      { ((Decoder.init.decode 2).1.decode 5).1 with
        inc := ((Decoder.init.decode 2).1.decode 5).1.inc ++ [0] } ∧
    (((Decoder.init.decode 2).1.decode 5).1.decode 0).2 = 0 ∧
    (((Decoder.init.decode 2).1.decode 5).1.decode 0).1.out = [5, 0] ∧
    (((Decoder.init.decode 2).1.decode 5).1.decode 0).1.len? = some 1285 :=
  ⟨rfl, rfl, rfl, rfl⟩

/-- Unfolding step of the long data block loop: one iteration fires while
the data block holds at least `0xCF` bytes. -/
theorem encLongLoop_step (e : Encoder) (h : 0xcf ≤ e.data.length) :
    e.encLongLoop = Encoder.encLongLoop
      ⟨e.out ++ 0xd0 :: e.data.take 0xcf, e.data.drop 0xcf, e.zeros⟩ := by
  conv_lhs => rw [Encoder.encLongLoop]
  rw [dif_pos h]
  rfl

/-- The long data block loop stops below `0xCF` data bytes. -/
theorem encLongLoop_fix (e : Encoder) (h : e.data.length < 0xcf) :
    e.encLongLoop = e := by
  rw [Encoder.encLongLoop, dif_neg (by omega)]

/-- Unfolding step of the fifteen-zeros run loop. -/
theorem zRunLoop_step (e : Encoder) (h : 15 < e.zeros.length)
    (h2 : e.data.length = 0) :
    e.zRunLoop = Encoder.zRunLoop ⟨e.out ++ [0xdf], e.data, e.zeros.drop 15⟩ := by
  conv_lhs => rw [Encoder.zRunLoop]
  rw [dif_pos ⟨h, h2⟩]
  show Encoder.zRunLoop ⟨e.out ++ 0xdf :: e.data.take 0, e.data.drop 0,
    e.zeros.drop 15⟩ = _
  rw [List.take_zero, List.drop_zero]

/-- The fifteen-zeros run loop stops when its guard fails. -/
theorem zRunLoop_fix (e : Encoder) (h : ¬(15 < e.zeros.length ∧ e.data.length = 0)) :
    e.zRunLoop = e := by
  rw [Encoder.zRunLoop, dif_neg h]

/-- Unfolding step of the tail loop: while zeros remain, emit
`len(data) + 1` and the whole data block, consuming the data and one
zero. -/
theorem tailLoop_step (e : Encoder) (z : Nat) (zs' : List Nat) (h : e.zeros = z :: zs') :
    e.tailLoop = Encoder.tailLoop ⟨e.out ++ (e.data.length + 1) :: e.data, [], zs'⟩ := by
  conv_lhs => rw [Encoder.tailLoop]
  rw [dif_pos (by rw [h]; exact List.cons_ne_nil z zs')]
  show Encoder.tailLoop ⟨e.out ++ (e.data.length + 1) :: e.data.take e.data.length,
    e.data.drop e.data.length, e.zeros.drop 1⟩ = _
  rw [List.take_length, List.drop_length, h, List.drop_one, List.tail_cons]

/-- The tail loop stops once the zeros block is exhausted. -/
theorem tailLoop_fix (e : Encoder) (h : e.zeros = []) : e.tailLoop = e := by
  rw [Encoder.tailLoop, dif_neg (by simp [h])]

/-- Helper: grouping a non-empty run of ones followed by a single zero
yields one data block and one zeros block. -/
theorem groupsByZero_ones (n : Nat) (h : 0 < n) :
    groupsByZero (List.replicate n 1 ++ [0]) =
      [(false, List.replicate n 1), (true, [0])] := by
  obtain ⟨m, rfl⟩ : ∃ m, n = m + 1 := ⟨n - 1, by omega⟩
  have ht : ∀ k : Nat, List.takeWhile (fun y => (y == 0) == (1 == 0))
      (List.replicate k 1 ++ [0]) = List.replicate k 1 := by
    intro k
    induction k with
    | zero => rfl
    | succ k ih =>
      simp only [List.replicate_succ, List.cons_append, List.takeWhile_cons]
      simp [ih]
  have hd : ∀ k : Nat, List.dropWhile (fun y => (y == 0) == (1 == 0))
      (List.replicate k 1 ++ [0]) = [0] := by
    intro k
    induction k with
    | zero => rfl
    | succ k ih =>
      simp only [List.replicate_succ, List.cons_append, List.dropWhile_cons]
      simp [ih]
  rw [List.replicate_succ, List.cons_append, groupsByZero]
  have h1 := ht (m + 1)
  have h2 := hd (m + 1)
  rw [List.replicate_succ, List.cons_append] at h1 h2
  rw [h1, h2]
  have h3 : groupsByZero [0] = [(true, [0])] := by
    simp [groupsByZero]
  rw [h3]
  simp

/-- Helper: the full evaluation of the encoder on a block of `0xCF`
ones. -/
theorem encode_ones_cf :
    Encoder.init.encode (List.replicate 0xcf 1) =
      ⟨0xd0 :: List.replicate 0xcf 1 ++ [1], [], []⟩ := by
  have hlen : (List.replicate 0xcf 1).length = 0xcf := List.length_replicate 0xcf 1
  have hA : Encoder.encLongLoop ⟨[], List.replicate 0xcf 1, [0]⟩ =
      ⟨0xd0 :: List.replicate 0xcf 1, [], [0]⟩ := by
    rw [encLongLoop_step _ (by rw [hlen])]
    rw [List.take_of_length_le (by rw [hlen])]
    rw [List.drop_eq_nil_of_le (by rw [hlen])]
    rw [encLongLoop_fix _ (by simp only [List.length_nil]; omega)]
    rw [List.nil_append]
  unfold Encoder.encode
  rw [groupsByZero_ones 0xcf (by omega)]
  simp only [List.foldl_cons, List.foldl_nil, Encoder.encodeStep,
    if_neg Bool.false_ne_true, if_pos rfl]
  show Encoder.processZeros ⟨[], List.replicate 0xcf 1, [0]⟩ = _
  unfold Encoder.processZeros
  simp only [hA]
  have hc2 : ¬(1 < ([0] : List Nat).length ∧ ([] : List Nat).length ≤ 30) := by
    simp
  rw [if_neg hc2]
  have hz : Encoder.zRunLoop ⟨0xd0 :: List.replicate 0xcf 1, [], [0]⟩ =
      ⟨0xd0 :: List.replicate 0xcf 1, [], [0]⟩ := by
    refine zRunLoop_fix _ ?_
    rintro ⟨hcon, -⟩
    simp at hcon
  rw [hz]
  have hc4 : ¬(2 < ([0] : List Nat).length ∧ ([] : List Nat).length = 0) := by
    simp
  rw [if_neg hc4]
  rw [tailLoop_step _ 0 [] rfl]
  rw [tailLoop_fix _ rfl]
  rfl

/-- C4 counterexample: encoding `0xCF` non-zero bytes emits `0xD0` followed
by all `0xCF` of them and then the code `0x01` for the phantom trailing
zero; the output predicted by the claim (`0xD0`, `0xCE` data bytes, then
the remaining byte encoded as `0x02 0x01`) differs from it. -/
theorem encoder_long_block_counterexample :
    (Encoder.init.encode (List.replicate 0xcf 1)).out =
      0xd0 :: (List.replicate 0xcf 1 ++ [0x01]) ∧
    (Encoder.init.encode (List.replicate 0xcf 1)).out ≠
      0xd0 :: (List.replicate 0xce 1 ++ [0x02, 0x01]) := by
  have hout : (Encoder.init.encode (List.replicate 0xcf 1)).out =
      0xd0 :: (List.replicate 0xcf 1 ++ [0x01]) := by
    rw [encode_ones_cf]
    rfl
  refine ⟨hout, ?_⟩
  rw [hout]
  intro hcontra
  have hc := congrArg (List.count 2) hcontra
  simp only [List.count_cons, List.count_append, List.count_replicate,
    List.count_nil] at hc
  norm_num at hc

/-- C4 amended: while the data block holds at least `0xCF` bytes, the long
block loop emits the code `0xD0` followed by exactly `0xCF = 0xD0 - 1`
bytes taken from the data block, consuming no zeros, and repeats on the
remaining data. -/
theorem encoder_long_block_step (e : Encoder) (h : 0xcf ≤ e.data.length) :
    e.encLongLoop = Encoder.encLongLoop
      ⟨e.out ++ 0xd0 :: e.data.take 0xcf, e.data.drop 0xcf, e.zeros⟩ ∧
    (e.data.take 0xcf).length = 0xcf := by
  refine ⟨encLongLoop_step e h, ?_⟩
  simp only [List.length_take]
  omega

/-- Witness for the amended C4 at a block of exactly `0xCF` ones. -/
theorem encoder_long_block_step_witness :
    0xcf ≤ (⟨[], List.replicate 0xcf 1, [0]⟩ : Encoder).data.length ∧
    (Encoder.encLongLoop ⟨[], List.replicate 0xcf 1, [0]⟩ =
      Encoder.encLongLoop ⟨([] : List Nat) ++
        0xd0 :: (⟨[], List.replicate 0xcf 1, [0]⟩ : Encoder).data.take 0xcf,
        (⟨[], List.replicate 0xcf 1, [0]⟩ : Encoder).data.drop 0xcf, [0]⟩ ∧
    ((⟨[], List.replicate 0xcf 1, [0]⟩ : Encoder).data.take 0xcf).length = 0xcf) :=
  ⟨by simp only [List.length_replicate]; omega,
    encoder_long_block_step ⟨[], List.replicate 0xcf 1, [0]⟩
      (by simp only [List.length_replicate]; omega)⟩

/-- C5 (code behaviour at the failing input): pretty-printing a VALUE
response whose `(type, code)` pair is missing from the printer table
raises `KeyError` (the direct dictionary indexing fails before the
fallback string could be produced), here at `(0x81, 0x00)`. -/
theorem kbi_to_text_unknown_value_keyerror :
    kbi_to_text (fun _ _ => "") 0x81 0x00 (some []) =
      .error PyErr.keyError ∧
    CLI2TEXT.lookup (0x81, 0x00) = none ∧
    (∀ fmt payload, kbi_to_text fmt 0x81 0x00 payload ≠
      .ok "Wrong value or parser not implemented") := by
  refine ⟨rfl, rfl, ?_⟩
  intro fmt payload
  unfold kbi_to_text
  rw [if_neg ?hneg]
  case hneg =>
    rintro (h | ⟨h, _⟩)
    · exact absurd h (by decide)
    · exact absurd h (by decide)
  rw [if_pos (Or.inl (by decide))]
  have hl : CLI2TEXT.lookup ((0x81 : Nat), (0x00 : Nat)) = none := rfl
  rw [hl]
  intro hcontra
  cases hcontra

/-- C6 (code behaviour): the `Could not send block #<b> after 5 retries.`
outcome is never written to the queue by `kbi_flash`, because the worker
raises `AttributeError` at `kicmds.FT_CMD` before its loop can run. -/
theorem kbi_flash_retry_message_never_enqueued (snum : String)
    (dfu_data : List Nat) (rsp? : Nat → Nat → Option KBIResponse) (b : Nat) :
    (kbi_flash snum dfu_data rsp?).2.count
      (FlashEv.put (snum ++ ": Could not send block #" ++ toString b ++
        " after 5 retries.")) = 0 ∧
    (kbi_flash snum dfu_data rsp?).1 = some PyErr.attributeError :=
  ⟨rfl, rfl⟩

/-- C8: `set_channel` accepts exactly the channels `11..26` when capture is
not running, recording the channel and issuing `config channel <n>`; any
other channel, or any attempt while running, changes nothing and issues no
command. -/
theorem sniffer_set_channel_spec (s : KiSniffer) (ch : Int) :
    s.set_channel ch =
      if s.is_running then (s, [])
      else if 11 ≤ ch ∧ ch ≤ 26 then
        ({ s with channel := ch }, ["config channel " ++ toString ch])
      else (s, []) := by
  unfold KiSniffer.set_channel
  by_cases hr : s.is_running
  · simp [hr]
  · by_cases h1 : 11 ≤ ch ∧ ch < 27
    · have h2 : 11 ≤ ch ∧ ch ≤ 26 := ⟨h1.1, by omega⟩
      simp [hr, h1, h2]
    · have h2 : ¬(11 ≤ ch ∧ ch ≤ 26) := by
        intro h2
        exact h1 ⟨h2.1, by omega⟩
      simp [hr, h1, h2]

/-- C9: DFU file parsing fails exactly when the file is shorter than 16
bytes (the suffix unpack raises `struct.error`) or when the signature
bytes at offsets 8..10 of the trailing 16-byte suffix differ from the
ASCII bytes of `UFD` (`argparse.ArgumentTypeError`); on success the
exposed image body is the file minus its last 16 bytes. -/
theorem dfufile_parse_spec (fd : List Nat) :
    ((∃ e, DfuFile.parse fd = .error e) ↔
      (fd.length < 16 ∨
        ((fd.drop (fd.length - 16)).drop 8).take 3 ≠ [0x55, 0x46, 0x44])) ∧
    (∀ f : DfuFile, DfuFile.parse fd = .ok f →
      f.data = fd.take (fd.length - 16)) := by
  by_cases h16 : fd.length < 16
  · have hc : (fd.drop (fd.length - 16)).length ≠ 16 := by
      simp only [List.length_drop]
      omega
    have hp : DfuFile.parse fd = .error .structError := by
      simp only [DfuFile.parse]
      rw [if_pos hc]
    rw [hp]
    constructor
    · exact ⟨fun _ => Or.inl h16, fun _ => ⟨.structError, rfl⟩⟩
    · intro f hf
      exact absurd hf (by simp)
  · push_neg at h16
    have hc : ¬((fd.drop (fd.length - 16)).length ≠ 16) := by
      simp only [List.length_drop]
      omega
    by_cases hsig : ((fd.drop (fd.length - 16)).drop 8).take 3 =
        [0x55, 0x46, 0x44]
    · have hp : DfuFile.parse fd =
          .ok ⟨fd.take (fd.length - 16), le16 (fd.drop (fd.length - 16)) 0,
            le16 (fd.drop (fd.length - 16)) 2, le16 (fd.drop (fd.length - 16)) 4,
            le16 (fd.drop (fd.length - 16)) 6⟩ := by
        simp only [DfuFile.parse]
        rw [if_neg hc, if_neg (by exact fun hne => hne hsig)]
      rw [hp]
      constructor
      · constructor
        · rintro ⟨e, he⟩
          exact absurd he (by simp)
        · intro hor
          rcases hor with h | h
          · omega
          · exact absurd hsig h
      · intro f hf
        injection hf with hx
        rw [← hx]
    · have hp : DfuFile.parse fd = .error .argumentTypeError := by
        simp only [DfuFile.parse]
        rw [if_neg hc, if_pos hsig]
      rw [hp]
      constructor
      · exact ⟨fun _ => Or.inr hsig, fun _ => ⟨.argumentTypeError, rfl⟩⟩
      · intro f hf
        exact absurd hf (by simp)

/-- Witness for C9: a 20-byte file with a valid `UFD` suffix parses
successfully and exposes the first four bytes as the image body. -/
theorem dfufile_parse_spec_witness :
    DfuFile.parse ([9, 9, 9, 9] ++ [1, 0, 2, 0, 3, 0, 4, 0,
      0x55, 0x46, 0x44, 16, 0, 0, 0, 0]) =
      .ok ⟨[9, 9, 9, 9], 1, 2, 3, 4⟩ ∧
    (⟨[9, 9, 9, 9], 1, 2, 3, 4⟩ : DfuFile).data =
      ([9, 9, 9, 9] ++ [1, 0, 2, 0, 3, 0, 4, 0,
        0x55, 0x46, 0x44, 16, 0, 0, 0, 0] : List Nat).take
        (([9, 9, 9, 9] ++ [1, 0, 2, 0, 3, 0, 4, 0,
          0x55, 0x46, 0x44, 16, 0, 0, 0, 0] : List Nat).length - 16) :=
  ⟨rfl,
    (dfufile_parse_spec ([9, 9, 9, 9] ++ [1, 0, 2, 0, 3, 0, 4, 0,
      0x55, 0x46, 0x44, 16, 0, 0, 0, 0])).2 ⟨[9, 9, 9, 9], 1, 2, 3, 4⟩ rfl⟩

/-- C10: `kbi_flash` raises `AttributeError` while evaluating
`kicmds.FT_CMD` (the module defines `CT_CMD`, `CT_RSC` and related
constants but neither `FT_CMD` nor `CMD_FW_UP` nor `FT_RSP`); the failure
happens before the `try:` block, before the serial port is opened and
before any block is sent, so the worker emits no event and writes nothing
to the outcome queue. -/
theorem kbi_flash_attribute_error (snum : String) (dfu_data : List Nat)
    (rsp? : Nat → Nat → Option KBIResponse) :
    kbi_flash snum dfu_data rsp? = (some PyErr.attributeError, []) ∧
    kicmdsAttr "FT_CMD" = none ∧
    kicmdsAttr "CMD_FW_UP" = none ∧
    kicmdsAttr "FT_RSP" = none ∧
    kicmdsAttr "CT_CMD" = some 0x40 ∧
    kicmdsAttr "CT_RSC" = some 0x80 :=
  ⟨rfl, rfl, rfl, rfl, rfl, rfl⟩

/-- Helper for C7: from any decoder state, every event the reader emits is
either a queue put of a valid non-notification response, a queue put of
the `None` marker, or a log delivery of a valid notification. -/
theorem readerRun_dispatch (bytes : List Nat) :
    ∀ (d : Decoder) (ev : ReaderEvent), ev ∈ (readerRun d bytes).2 →
      (∀ r, ev = ReaderEvent.queuePut (some r) →
        r.valid = true ∧ r.is_notification = false) ∧
      (∀ r, ev = ReaderEvent.logNotif r →
        r.valid = true ∧ r.is_notification = true) := by
  induction bytes with
  | nil =>
    intro d ev hev
    simp [readerRun] at hev
  | cons b bs ih =>
    intro d ev hev
    simp only [readerRun, List.mem_append] at hev
    rcases hev with h | h
    · simp only [readerStep] at h
      split_ifs at h with hs hv hn
      · simp only [List.mem_singleton] at h
        subst h
        constructor
        · intro r hr
          cases hr
        · intro r hr
          cases hr
          exact ⟨hv, hn⟩
      · simp only [List.mem_singleton] at h
        subst h
        constructor
        · intro r hr
          cases hr
          exact ⟨hv, by simpa using hn⟩
        · intro r hr
          cases hr
      · simp only [List.mem_singleton] at h
        subst h
        constructor
        · intro r hr
          cases hr
        · intro r hr
          cases hr
      · simp at h
    · exact ih (readerStep d b).1 ev h

/-- C7: in the threaded reader, every response put into the response queue
is a valid non-notification frame (or the `None` decode-error marker), and
everything delivered to the log channel is a valid notification; hence a
valid notification frame is never put into the response queue. -/
theorem reader_notifications_never_queued (bytes : List Nat)
    (r : KBIResponse) :
    (ReaderEvent.queuePut (some r) ∈ (readerRun Decoder.init bytes).2 →
      r.valid = true ∧ r.is_notification = false) ∧
    (ReaderEvent.logNotif r ∈ (readerRun Decoder.init bytes).2 →
      r.valid = true ∧ r.is_notification = true) ∧
    (r.valid = true → r.is_notification = true →
      ReaderEvent.queuePut (some r) ∉ (readerRun Decoder.init bytes).2) := by
  refine ⟨?_, ?_, ?_⟩
  · intro hmem
    exact ((readerRun_dispatch bytes Decoder.init _ hmem).1 r rfl)
  · intro hmem
    exact ((readerRun_dispatch bytes Decoder.init _ hmem).2 r rfl)
  · intro _ hn hmem
    have := ((readerRun_dispatch bytes Decoder.init _ hmem).1 r rfl).2
    rw [this] at hn
    cases hn

/-- Witness for C7: the COBS stream of the response frame
`[0, 0, 0x80, 0, 0x80]` produces a queue put of a valid non-notification
response, and the stream of the notification frame `[0, 0, 0xC0, 0, 0xC0]`
produces a log delivery of a valid notification. -/
theorem reader_notifications_never_queued_witness :
    (ReaderEvent.queuePut (some (KBIResponse.make [0, 0, 0x80, 0, 0x80] 5)) ∈
        (readerRun Decoder.init [0xe0, 0x02, 0x80, 0x02, 0x80]).2 ∧
      (KBIResponse.make [0, 0, 0x80, 0, 0x80] 5).valid = true ∧
      (KBIResponse.make [0, 0, 0x80, 0, 0x80] 5).is_notification = false) ∧
    (ReaderEvent.logNotif (KBIResponse.make [0, 0, 0xc0, 0, 0xc0] 5) ∈
        (readerRun Decoder.init [0xe0, 0x02, 0xc0, 0x02, 0xc0]).2 ∧
      (KBIResponse.make [0, 0, 0xc0, 0, 0xc0] 5).valid = true ∧
      (KBIResponse.make [0, 0, 0xc0, 0, 0xc0] 5).is_notification = true) :=
  ⟨⟨by decide,
    (reader_notifications_never_queued [0xe0, 0x02, 0x80, 0x02, 0x80]
      (KBIResponse.make [0, 0, 0x80, 0, 0x80] 5)).1 (by decide)⟩,
   ⟨by decide,
    ((reader_notifications_never_queued [0xe0, 0x02, 0xc0, 0x02, 0xc0]
      (KBIResponse.make [0, 0, 0xc0, 0, 0xc0] 5)).2).1 (by decide)⟩⟩

/-! ## COBS round-trip, phase A: the encoder emits well-formed code units -/

/-- A list of zeros is a `replicate`. -/
theorem allzero_eq_replicate (l : List Nat) (hz : ∀ x ∈ l, x = 0) :
    l = List.replicate l.length 0 :=
  List.eq_replicate_iff.mpr ⟨rfl, hz⟩

/-- A list of at least two zeros starts with two zeros. -/
theorem allzero_cons_cons (l : List Nat) (hz : ∀ x ∈ l, x = 0)
    (h2 : 2 ≤ l.length) : l = 0 :: 0 :: l.drop 2 := by
  match l, h2 with
  | x :: y :: rest, _ =>
    have hx := hz x (by simp)
    have hy := hz y (by simp)
    subst hx hy
    rfl

/-- A unit list without zero-run units is guarded over any base. -/
theorem runsGuarded_of_no_runs (b : Nat) (us : List CUnit)
    (h : ∀ u ∈ us, u.isRun = false) : RunsGuarded b us := by
  intro us₁ u us₂ hsplit hrun
  have hu : u ∈ us := by
    rw [hsplit]
    simp
  rw [h u hu] at hrun
  cases hrun

/-- A unit list whose prefix `a` has no runs and at least two octets of
expansion is guarded, whatever follows. -/
theorem runsGuarded_after (a b : List CUnit)
    (ha : ∀ u ∈ a, u.isRun = false)
    (hlen : 2 ≤ (a.flatMap CUnit.expand).length) :
    RunsGuarded 0 (a ++ b) := by
  intro us₁ u us₂ hsplit hrun
  rcases List.append_eq_append_iff.mp hsplit with ⟨t, hus₁, hbt⟩ | ⟨t, hat, hrest⟩
  · subst hus₁
    rw [List.flatMap_append, List.length_append]
    omega
  · cases t with
    | nil =>
      rw [List.append_nil] at hat
      subst hat
      omega
    | cons v t' =>
      have hv : v ∈ a := by
        rw [hat]
        simp
      have huv : u = v := by
        have hh := congrArg List.head? hrest
        simpa using hh
      rw [huv, ha v hv] at hrun
      cases hrun

/-- Guardedness is preserved by concatenation of guarded lists. -/
theorem runsGuarded_append (a b : List CUnit)
    (hga : RunsGuarded 0 a) (hgb : RunsGuarded 0 b) :
    RunsGuarded 0 (a ++ b) := by
  intro us₁ u us₂ hsplit hrun
  rcases List.append_eq_append_iff.mp hsplit with ⟨t, hus₁, hbt⟩ | ⟨t, hat, hrest⟩
  · subst hus₁
    have := hgb t u us₂ hbt hrun
    rw [List.flatMap_append, List.length_append]
    omega
  · cases t with
    | nil =>
      rw [List.append_nil] at hat
      subst hat
      have hb : b = u :: us₂ := by
        simpa using hrest.symm
      have := hgb [] u us₂ (by rw [hb]; rfl) hrun
      simpa using this
    | cons v t' =>
      have huv : u = v := by
        have hh := congrArg List.head? hrest
        simpa using hh
      subst huv
      exact hga us₁ u t' hat hrun

/-- Characterization of the long data block loop: it emits a sequence of
`long` units covering a prefix of the data and leaves fewer than `0xCF`
data bytes, not touching the zeros. -/
theorem encLongLoop_units (e : Encoder) :
    ∃ (us : List CUnit) (rest : List Nat),
      (∀ u ∈ us, u.WF ∧ u.isRun = false) ∧
      e.encLongLoop = ⟨e.out ++ us.flatMap CUnit.bytes, rest, e.zeros⟩ ∧
      us.flatMap CUnit.expand ++ rest = e.data ∧
      rest.length < 0xcf := by
  suffices H : ∀ n, ∀ e : Encoder, e.data.length = n →
      ∃ (us : List CUnit) (rest : List Nat),
        (∀ u ∈ us, u.WF ∧ u.isRun = false) ∧
        e.encLongLoop = ⟨e.out ++ us.flatMap CUnit.bytes, rest, e.zeros⟩ ∧
        us.flatMap CUnit.expand ++ rest = e.data ∧
        rest.length < 0xcf by
    exact H e.data.length e rfl
  intro n
  induction n using Nat.strong_induction_on with
  | _ n ih =>
    intro e hn
    by_cases h : 0xcf ≤ e.data.length
    · obtain ⟨us', rest, hwf, heq, hexp, hlt⟩ :=
        ih (e.data.length - 0xcf) (by omega)
          ⟨e.out ++ 0xd0 :: e.data.take 0xcf, e.data.drop 0xcf, e.zeros⟩
          (by simp only [List.length_drop])
      refine ⟨CUnit.long (e.data.take 0xcf) :: us', rest, ?_, ?_, ?_, hlt⟩
      · intro u hu
        rcases List.mem_cons.mp hu with hu | hu
        · subst hu
          refine ⟨?_, rfl⟩
        
          show (e.data.take 0xcf).length = 0xcf
          rw [List.length_take]
          omega
        · exact hwf u hu
      · rw [encLongLoop_step e h, heq]
        simp [CUnit.bytes, List.append_assoc]
      · show (e.data.take 0xcf ++ us'.flatMap CUnit.expand) ++ rest = e.data
        rw [List.append_assoc, hexp]
        exact List.take_append_drop 0xcf e.data
    · rw [encLongLoop_fix e (by omega)]
      refine ⟨[], e.data, by simp, ?_, by simp, by omega⟩
      simp

/-- Characterization of the fifteen-zeros run loop: it emits `run 15`
units, consuming fifteen zeros each, and stops with at most fifteen zeros
left whenever the data block is empty; the data and out-prefix are
untouched. -/
theorem zRunLoop_units (e : Encoder) (hz : ∀ x ∈ e.zeros, x = 0) :
    ∃ (us : List CUnit) (zr : List Nat),
      (∀ u ∈ us, u = CUnit.run 15) ∧
      e.zRunLoop = ⟨e.out ++ us.flatMap CUnit.bytes, e.data, zr⟩ ∧
      us.flatMap CUnit.expand ++ zr = e.zeros ∧
      (e.data.length = 0 → zr.length ≤ 15) := by
  suffices H : ∀ n, ∀ e : Encoder, e.zeros.length = n → (∀ x ∈ e.zeros, x = 0) →
      ∃ (us : List CUnit) (zr : List Nat),
        (∀ u ∈ us, u = CUnit.run 15) ∧
        e.zRunLoop = ⟨e.out ++ us.flatMap CUnit.bytes, e.data, zr⟩ ∧
        us.flatMap CUnit.expand ++ zr = e.zeros ∧
        (e.data.length = 0 → zr.length ≤ 15) by
    exact H e.zeros.length e rfl hz
  intro n
  induction n using Nat.strong_induction_on with
  | _ n ih =>
    intro e hn hz
    by_cases h : 15 < e.zeros.length ∧ e.data.length = 0
    · obtain ⟨us', zr, hall, heq, hexp, hbound⟩ :=
        ih (e.zeros.length - 15) (by omega)
          ⟨e.out ++ [0xdf], e.data, e.zeros.drop 15⟩
          (by simp only [List.length_drop])
          (fun x hx => hz x (List.mem_of_mem_drop hx))
      refine ⟨CUnit.run 15 :: us', zr, ?_, ?_, ?_, hbound⟩
      · intro u hu
        rcases List.mem_cons.mp hu with hu | hu
        · exact hu
        · exact hall u hu
      · rw [zRunLoop_step e h.1 h.2, heq]
        simp [CUnit.bytes, List.append_assoc]
      · show (List.replicate 15 0 ++ us'.flatMap CUnit.expand) ++ zr = e.zeros
        rw [List.append_assoc, hexp]
        have htake : e.zeros.take 15 = List.replicate 15 0 := by
          refine List.eq_replicate_iff.mpr ⟨?_, ?_⟩
          · rw [List.length_take]
            omega
          · intro b hb
            exact hz b (List.mem_of_mem_take hb)
        rw [← htake]
        exact List.take_append_drop 15 e.zeros
    · rw [zRunLoop_fix e h]
      refine ⟨[], e.zeros, by simp, by simp, by simp, ?_⟩
      intro hd
      omega

/-- Characterization of the tail loop on a non-empty zeros block: it
emits one `tail` unit holding the data block and then one `tail []` unit
per remaining zero, draining both blocks. -/
theorem tailLoop_units (e : Encoder) (hne : e.zeros ≠ []) :
    e.tailLoop = ⟨e.out ++ (CUnit.tail e.data :: List.replicate
      (e.zeros.length - 1) (CUnit.tail [])).flatMap CUnit.bytes, [], []⟩ := by
  obtain ⟨O, d, zs⟩ := e
  induction zs generalizing O d with
  | nil => exact absurd rfl hne
  | cons z zs' ihz =>
    rw [tailLoop_step ⟨O, d, z :: zs'⟩ z zs' rfl]
    cases zs' with
    | nil =>
      rw [tailLoop_fix _ rfl]
      simp [CUnit.bytes]
    | cons z' zs'' =>
      rw [ihz (O ++ (d.length + 1) :: d) [] (by simp)]
      simp [CUnit.bytes, List.replicate_succ, List.append_assoc]

/-- Expansion of the unit list emitted by the tail loop: the data block
plus one zero per unit. -/
theorem tail_units_expand (d : List Nat) (k : Nat) :
    (CUnit.tail d :: List.replicate k (CUnit.tail [])).flatMap CUnit.expand
      = d ++ List.replicate (k + 1) 0 := by
  induction k with
  | zero => simp [CUnit.expand]
  | succ k ihk =>
    have : (CUnit.tail d :: List.replicate (k + 1) (CUnit.tail [])) =
        (CUnit.tail d :: List.replicate k (CUnit.tail [])) ++ [CUnit.tail []] := by
      rw [List.replicate_succ']
      rfl
    rw [this, List.flatMap_append, ihk]
    show d ++ List.replicate (k + 1) 0 ++ ([] ++ [0] ++ []) = _
    rw [List.append_assoc]
    congr 1
    show List.replicate (k + 1) 0 ++ [0] = List.replicate (k + 1 + 1) 0
    rw [← List.replicate_succ']

/-- The tail loop units are well-formed and contain no runs, provided the
data block fits the code range. -/
theorem tail_units_wf (d : List Nat) (k : Nat) (hd : d.length ≤ 0xce) :
    ∀ u ∈ CUnit.tail d :: List.replicate k (CUnit.tail []),
      u.WF ∧ u.isRun = false := by
  intro u hu
  rcases List.mem_cons.mp hu with hu | hu
  · subst hu
    exact ⟨hd, rfl⟩
  · rw [List.eq_of_mem_replicate hu]
    exact ⟨by simp [CUnit.WF], rfl⟩

/-- Two encoder states with equal fields are equal. -/
theorem encoderEqOfFields (x y : Encoder) (h1 : x.out = y.out)
    (h2 : x.data = y.data) (h3 : x.zeros = y.zeros) : x = y := by
  cases x
  cases y
  cases h1
  cases h2
  cases h3
  rfl

/-- Characterization of the zeros block processing: once a non-empty block
of zeros has arrived, the emission rules drain both blocks, appending the
byte sequences of a well-formed, run-guarded unit list whose expansion is
exactly the pending data followed by the zeros. -/
theorem processZeros_units (e : Encoder) (hz : ∀ x ∈ e.zeros, x = 0)
    (hne : e.zeros ≠ []) :
    ∃ us : List CUnit,
      (∀ u ∈ us, u.WF) ∧ RunsGuarded 0 us ∧
      e.processZeros = ⟨e.out ++ us.flatMap CUnit.bytes, [], []⟩ ∧
      us.flatMap CUnit.expand = e.data ++ e.zeros := by
  obtain ⟨usL, dL, hLwf, hLeq, hLexp, hLlt⟩ := encLongLoop_units e
  have hLout : e.encLongLoop.out = e.out ++ usL.flatMap CUnit.bytes := by
    rw [hLeq]
  have hLdata : e.encLongLoop.data = dL := by
    rw [hLeq]
  have hLzeros : e.encLongLoop.zeros = e.zeros := by
    rw [hLeq]
  have hzlen : 1 ≤ e.zeros.length := by
    have := List.length_pos.mpr hne
    omega
  by_cases ho2 : 1 < e.zeros.length ∧ dL.length ≤ 0x1e
  · -- the 0xE0 + n step fires and consumes the data and two zeros
    have hcond : 1 < e.encLongLoop.zeros.length ∧
        e.encLongLoop.data.length ≤ 0x1e := by
      rw [hLzeros, hLdata]
      exact ho2
    have hs2zeros : (e.encLongLoop.encStep (0xe0 + e.encLongLoop.data.length)
        e.encLongLoop.data.length 2).zeros = e.zeros.drop 2 := by
      show e.encLongLoop.zeros.drop 2 = e.zeros.drop 2
      rw [hLzeros]
    have hs2data : (e.encLongLoop.encStep (0xe0 + e.encLongLoop.data.length)
        e.encLongLoop.data.length 2).data = [] := by
      show e.encLongLoop.data.drop e.encLongLoop.data.length = []
      exact List.drop_length _
    have hs2out : (e.encLongLoop.encStep (0xe0 + e.encLongLoop.data.length)
        e.encLongLoop.data.length 2).out =
        e.out ++ usL.flatMap CUnit.bytes ++ (0xe0 + dL.length) :: dL := by
      show e.encLongLoop.out ++ (0xe0 + e.encLongLoop.data.length) ::
        e.encLongLoop.data.take e.encLongLoop.data.length = _
      rw [List.take_length, hLout, hLdata]
    obtain ⟨usR, zr, hRall, hReq, hRexp, hRbound⟩ :=
      zRunLoop_units (e.encLongLoop.encStep (0xe0 + e.encLongLoop.data.length)
        e.encLongLoop.data.length 2)
        (by rw [hs2zeros]; exact fun x hx => hz x (List.mem_of_mem_drop hx))
    have hReq2 : (e.encLongLoop.encStep (0xe0 + e.encLongLoop.data.length)
        e.encLongLoop.data.length 2).zRunLoop =
        ⟨e.out ++ usL.flatMap CUnit.bytes ++ (0xe0 + dL.length) :: dL ++
          usR.flatMap CUnit.bytes, [], zr⟩ := by
      rw [hReq]
      refine encoderEqOfFields _ _ ?_ hs2data rfl
      show (e.encLongLoop.encStep (0xe0 + e.encLongLoop.data.length)
        e.encLongLoop.data.length 2).out ++ usR.flatMap CUnit.bytes = _
      rw [hs2out]
    have hRexp' : usR.flatMap CUnit.expand ++ zr = e.zeros.drop 2 := by
      rw [← hs2zeros]
      exact hRexp
    have hRzero : ∀ x ∈ zr, x = 0 := by
      intro x hx
      have hx2 : x ∈ e.zeros.drop 2 := by
        rw [← hRexp']
        exact List.mem_append_right _ hx
      exact hz x (List.mem_of_mem_drop hx2)
    have hbound15 : zr.length ≤ 15 := by
      refine hRbound ?_
      rw [hs2data]
      rfl
    have hzrrep : List.replicate zr.length 0 = zr :=
      (allzero_eq_replicate zr hRzero).symm
    have hz02 : e.zeros = 0 :: 0 :: e.zeros.drop 2 :=
      allzero_cons_cons e.zeros hz (by omega)
    have husRwf : ∀ u ∈ usR, u.WF := by
      intro u hu
      rw [hRall u hu]
      exact ⟨by omega, by omega⟩
    have husRnotrun : ∀ u ∈ usL ++ [CUnit.withTwo dL], u.isRun = false := by
      intro u hu
      rcases List.mem_append.mp hu with hu | hu
      · exact (hLwf u hu).2
      · rw [List.mem_singleton.mp hu]
        rfl
    have hguardlen :
        2 ≤ ((usL ++ [CUnit.withTwo dL]).flatMap CUnit.expand).length := by
      simp only [List.flatMap_append, List.length_append]
      simp [CUnit.expand]
      omega
    by_cases ho4 : 2 < zr.length
    · -- a final zero-run code flushes the leftover zeros
      refine ⟨(usL ++ [CUnit.withTwo dL]) ++
        (usR ++ [CUnit.run zr.length]), ?_, ?_, ?_, ?_⟩
      · intro u hu
        rcases List.mem_append.mp hu with hu | hu
        · rcases List.mem_append.mp hu with hu | hu
          · exact (hLwf u hu).1
          · rw [List.mem_singleton.mp hu]
            exact ho2.2
        · rcases List.mem_append.mp hu with hu | hu
          · exact husRwf u hu
          · rw [List.mem_singleton.mp hu]
            exact ⟨by omega, hbound15⟩
      · exact runsGuarded_after _ _ husRnotrun hguardlen
      · simp only [Encoder.processZeros]
        rw [if_pos hcond, hReq2]
        rw [if_pos (And.intro (show 2 < zr.length from ho4)
          (show ([] : List Nat).length = 0 from rfl))]
        rw [tailLoop_fix _ (List.drop_length zr)]
        refine encoderEqOfFields _ _ ?_ rfl (List.drop_length zr)
        show (e.out ++ usL.flatMap CUnit.bytes ++ (0xe0 + dL.length) :: dL ++
          usR.flatMap CUnit.bytes) ++ (0xd0 + zr.length) ::
          ([] : List Nat).take 0 = _
        simp [CUnit.bytes, List.append_assoc]
      · simp only [List.flatMap_append, List.flatMap_cons, List.flatMap_nil,
          CUnit.expand, List.append_nil]
        rw [hzrrep, hz02, ← hRexp', ← hLexp]
        simp [List.append_assoc]
    · -- at most two zeros are left for the tail loop
      by_cases hzr : zr = []
      · refine ⟨(usL ++ [CUnit.withTwo dL]) ++ usR, ?_, ?_, ?_, ?_⟩
        · intro u hu
          rcases List.mem_append.mp hu with hu | hu
          · rcases List.mem_append.mp hu with hu | hu
            · exact (hLwf u hu).1
            · rw [List.mem_singleton.mp hu]
              exact ho2.2
          · exact husRwf u hu
        · exact runsGuarded_after _ _ husRnotrun hguardlen
        · simp only [Encoder.processZeros]
          rw [if_pos hcond, hReq2]
          rw [if_neg (show ¬(2 < zr.length ∧ ([] : List Nat).length = 0)
            from fun hc => ho4 hc.1)]
          rw [tailLoop_fix _ hzr]
          refine encoderEqOfFields _ _ ?_ rfl hzr
          show e.out ++ usL.flatMap CUnit.bytes ++ (0xe0 + dL.length) :: dL ++
            usR.flatMap CUnit.bytes = _
          simp [CUnit.bytes, List.append_assoc]
        · rw [List.flatMap_append, List.flatMap_append]
          simp only [List.flatMap_cons, List.flatMap_nil, CUnit.expand,
            List.append_nil]
          rw [hz02, ← hLexp]
          have husR2 : usR.flatMap CUnit.expand = e.zeros.drop 2 := by
            rw [← hRexp', hzr, List.append_nil]
          rw [husR2]
          simp [List.append_assoc]
      · refine ⟨(usL ++ [CUnit.withTwo dL]) ++
          (usR ++ (CUnit.tail [] :: List.replicate (zr.length - 1)
            (CUnit.tail []))), ?_, ?_, ?_, ?_⟩
        · intro u hu
          rcases List.mem_append.mp hu with hu | hu
          · rcases List.mem_append.mp hu with hu | hu
            · exact (hLwf u hu).1
            · rw [List.mem_singleton.mp hu]
              exact ho2.2
          · rcases List.mem_append.mp hu with hu | hu
            · exact husRwf u hu
            · exact (tail_units_wf [] (zr.length - 1) (by simp) u hu).1
        · exact runsGuarded_after _ _ husRnotrun hguardlen
        · simp only [Encoder.processZeros]
          rw [if_pos hcond, hReq2]
          rw [if_neg (show ¬(2 < zr.length ∧ ([] : List Nat).length = 0)
            from fun hc => ho4 hc.1)]
          rw [tailLoop_units _ hzr]
          refine encoderEqOfFields _ _ ?_ rfl rfl
          show (e.out ++ usL.flatMap CUnit.bytes ++ (0xe0 + dL.length) :: dL ++
            usR.flatMap CUnit.bytes) ++ (CUnit.tail ([] : List Nat) ::
            List.replicate (zr.length - 1) (CUnit.tail [])).flatMap
              CUnit.bytes = _
          simp [CUnit.bytes, List.append_assoc]
        · rw [List.flatMap_append, List.flatMap_append, List.flatMap_append,
            tail_units_expand]
          simp only [List.flatMap_cons, List.flatMap_nil, CUnit.expand,
            List.append_nil]
          have hzrl : zr.length - 1 + 1 = zr.length := by
            have := List.length_pos.mpr hzr
            omega
          rw [hzrl, hzrrep, hz02, ← hRexp', ← hLexp]
          simp [List.append_assoc]
  · -- no 0xE0 step: everything goes through the tail loop
    have hnz : e.encLongLoop.zeros ≠ [] := by
      rw [hLzeros]
      exact hne
    have hfix2 : ¬(1 < e.encLongLoop.zeros.length ∧
        e.encLongLoop.data.length ≤ 0x1e) := by
      rw [hLzeros, hLdata]
      exact ho2
    have hfix3 : ¬(15 < e.encLongLoop.zeros.length ∧
        e.encLongLoop.data.length = 0) := by
      rw [hLzeros, hLdata]
      rintro ⟨h15, hd0⟩
      exact ho2 ⟨by omega, by omega⟩
    have hfix4 : ¬(2 < e.encLongLoop.zeros.length ∧
        e.encLongLoop.data.length = 0) := by
      rw [hLzeros, hLdata]
      rintro ⟨h2c, hd0⟩
      exact ho2 ⟨by omega, by omega⟩
    refine ⟨usL ++ (CUnit.tail dL :: List.replicate (e.zeros.length - 1)
      (CUnit.tail [])), ?_, ?_, ?_, ?_⟩
    · intro u hu
      rcases List.mem_append.mp hu with hu | hu
      · exact (hLwf u hu).1
      · exact (tail_units_wf dL (e.zeros.length - 1) (by omega) u hu).1
    · refine runsGuarded_of_no_runs 0 _ ?_
      intro u hu
      rcases List.mem_append.mp hu with hu | hu
      · exact (hLwf u hu).2
      · exact (tail_units_wf dL (e.zeros.length - 1) (by omega) u hu).2
    · simp only [Encoder.processZeros]
      rw [if_neg hfix2, zRunLoop_fix _ hfix3, if_neg hfix4]
      rw [tailLoop_units _ hnz]
      refine encoderEqOfFields _ _ ?_ rfl rfl
      rw [hLout, hLdata, hLzeros]
      simp [CUnit.bytes, List.append_assoc]
    · rw [List.flatMap_append, tail_units_expand]
      have hzl : e.zeros.length - 1 + 1 = e.zeros.length := by
        omega
      rw [hzl, ← allzero_eq_replicate e.zeros hz, ← hLexp]
      simp [List.append_assoc]

/-- Unfolding of `groupsByZero` on a non-empty list. -/
theorem groupsByZero_cons (x : Nat) (xs : List Nat) :
    groupsByZero (x :: xs) =
      ((x == 0), (x :: xs).takeWhile (fun y => (y == 0) == (x == 0))) ::
        groupsByZero ((x :: xs).dropWhile (fun y => (y == 0) == (x == 0))) := by
  rw [groupsByZero]

/-- A non-empty suffix inherits the trailing zero. -/
theorem getLast_zero_suffix (a b : List Nat) (hb : b ≠ [])
    (h : (a ++ b).getLast? = some 0) : b.getLast? = some 0 := by
  rw [List.getLast?_append] at h
  cases hgl : b.getLast? with
  | none => exact absurd (List.getLast?_eq_none_iff.mp hgl) hb
  | some v =>
    rw [hgl] at h
    have hv : v = 0 := by simpa using h
    rw [hv]

/-- The head of a non-empty `dropWhile` fails the predicate. -/
theorem dropWhile_head_not (p : Nat → Bool) (h : Nat) (t : List Nat) :
    ∀ l : List Nat, l.dropWhile p = h :: t → p h = false := by
  intro l
  induction l with
  | nil =>
    intro he
    cases he
  | cons x xs ihx =>
    intro he
    rw [List.dropWhile_cons] at he
    by_cases hpx : p x = true
    · rw [if_pos hpx] at he
      exact ihx he
    · rw [if_neg hpx] at he
      injection he with h1 _
      rw [← h1]
      simp only [Bool.not_eq_true] at hpx
      exact hpx

/-- Folding the encoder loop body over the blocks of a list ending in a
zero drains everything: the final state has empty data and zeros blocks and
the output extends by the bytes of a well-formed, run-guarded unit list
whose expansion is the whole input. -/
theorem encodeFold_units (n : Nat) :
    ∀ l : List Nat, l.length ≤ n → l.getLast? = some 0 → ∀ O : List Nat,
      ∃ us : List CUnit,
        (∀ u ∈ us, u.WF) ∧ RunsGuarded 0 us ∧
        (groupsByZero l).foldl Encoder.encodeStep ⟨O, [], []⟩ =
          ⟨O ++ us.flatMap CUnit.bytes, [], []⟩ ∧
        us.flatMap CUnit.expand = l := by
  induction n with
  | zero =>
    intro l hl hlast O
    cases l with
    | nil => cases hlast
    | cons x xs => simp at hl
  | succ n ih =>
    intro l hl hlast O
    cases l with
    | nil => cases hlast
    | cons x xs =>
      rw [groupsByZero_cons]
      by_cases hx : x = 0
      · subst hx
        set z := (0 :: xs).takeWhile (fun y => (y == 0) == (0 == 0)) with hzdef
        set r := (0 :: xs).dropWhile (fun y => (y == 0) == (0 == 0)) with hrdef
        have hz : ∀ y ∈ z, y = 0 := by
          intro y hy
          have := List.mem_takeWhile_imp hy
          simpa using this
        have hzne : z ≠ [] := by
          rw [hzdef, List.takeWhile_cons_of_pos (by simp)]
          simp
        have hsplit : z ++ r = 0 :: xs := List.takeWhile_append_dropWhile _ _
        obtain ⟨us₀, hwf₀, hg₀, heq₀, hexp₀⟩ :=
          processZeros_units ⟨O, [], z⟩ hz hzne
        have heq₀' : Encoder.processZeros ⟨O, [], z⟩ =
            ⟨O ++ us₀.flatMap CUnit.bytes, [], []⟩ := heq₀
        have hexp₀' : us₀.flatMap CUnit.expand = z := by
          have h := hexp₀
          simpa using h
        have hstep : Encoder.encodeStep ⟨O, [], []⟩ ((0 == 0 : Bool), z) =
            Encoder.processZeros ⟨O, [], z⟩ := rfl
        simp only [List.foldl_cons]
        rw [hstep, heq₀']
        by_cases hr : r = []
        · refine ⟨us₀, hwf₀, hg₀, ?_, ?_⟩
          · rw [hr]
            simp [groupsByZero]
          · rw [hexp₀', ← hsplit, hr, List.append_nil]
        · have hlen : r.length ≤ n := by
            have hc := congrArg List.length hsplit
            rw [List.length_append] at hc
            have h1 := List.length_pos.mpr hzne
            simp only [List.length_cons] at hc hl
            omega
          have hlast' : r.getLast? = some 0 :=
            getLast_zero_suffix z r hr (by rw [hsplit]; exact hlast)
          obtain ⟨us₁, hwf₁, hg₁, heq₁, hexp₁⟩ :=
            ih r hlen hlast' (O ++ us₀.flatMap CUnit.bytes)
          refine ⟨us₀ ++ us₁, ?_, runsGuarded_append _ _ hg₀ hg₁, ?_, ?_⟩
          · intro u hu
            rcases List.mem_append.mp hu with hu | hu
            · exact hwf₀ u hu
            · exact hwf₁ u hu
          · rw [heq₁]
            refine encoderEqOfFields _ _ ?_ rfl rfl
            show O ++ us₀.flatMap CUnit.bytes ++ us₁.flatMap CUnit.bytes = _
            simp [List.flatMap_append, List.append_assoc]
          · rw [List.flatMap_append, hexp₀', hexp₁, hsplit]
      · have hkey : (x == 0) = false := by simp [hx]
        set w := (x :: xs).takeWhile (fun y => (y == 0) == (x == 0)) with hwdef
        set r := (x :: xs).dropWhile (fun y => (y == 0) == (x == 0)) with hrdef
        have hw : ∀ y ∈ w, y ≠ 0 := by
          intro y hy
          have := List.mem_takeWhile_imp hy
          rw [hkey] at this
          simpa using this
        have hwne : w ≠ [] := by
          rw [hwdef, List.takeWhile_cons_of_pos (by simp)]
          simp
        have hsplit : w ++ r = x :: xs := List.takeWhile_append_dropWhile _ _
        have hrne : r ≠ [] := by
          intro hr0
          have h0l : (0 : Nat) ∈ x :: xs := List.mem_of_mem_getLast? hlast
          rw [← hsplit, hr0, List.append_nil] at h0l
          exact hw 0 h0l rfl
        obtain ⟨h, r', hrr⟩ := List.exists_cons_of_ne_nil hrne
        have hh0 : h = 0 := by
          have hhd := dropWhile_head_not (fun y => (y == 0) == (x == 0)) h r'
            (x :: xs) (by rw [← hrdef]; exact hrr)
          rw [hkey] at hhd
          simpa using hhd
        subst hh0
        have hstep1 : Encoder.encodeStep ⟨O, [], []⟩ ((x == 0 : Bool), w) =
            ⟨O, w, []⟩ := by
          simp [Encoder.encodeStep, hkey]
        simp only [List.foldl_cons]
        rw [hstep1, hrr, groupsByZero_cons]
        set z := (0 :: r').takeWhile (fun y => (y == 0) == (0 == 0)) with hzdef
        set r2 := (0 :: r').dropWhile (fun y => (y == 0) == (0 == 0)) with hr2def
        have hzz : ∀ y ∈ z, y = 0 := by
          intro y hy
          have := List.mem_takeWhile_imp hy
          simpa using this
        have hzne : z ≠ [] := by
          rw [hzdef, List.takeWhile_cons_of_pos (by simp)]
          simp
        have hsplit2 : z ++ r2 = 0 :: r' := List.takeWhile_append_dropWhile _ _
        obtain ⟨us₀, hwf₀, hg₀, heq₀, hexp₀⟩ :=
          processZeros_units ⟨O, w, z⟩ hzz hzne
        have heq₀' : Encoder.processZeros ⟨O, w, z⟩ =
            ⟨O ++ us₀.flatMap CUnit.bytes, [], []⟩ := heq₀
        have hexp₀' : us₀.flatMap CUnit.expand = w ++ z := hexp₀
        have hstep2 : Encoder.encodeStep ⟨O, w, []⟩ ((0 == 0 : Bool), z) =
            Encoder.processZeros ⟨O, w, z⟩ := rfl
        simp only [List.foldl_cons]
        rw [hstep2, heq₀']
        by_cases hr2 : r2 = []
        · refine ⟨us₀, hwf₀, hg₀, ?_, ?_⟩
          · rw [hr2]
            simp [groupsByZero]
          · rw [hexp₀', ← hsplit, hrr, ← hsplit2, hr2, List.append_nil]
        · have hlen2 : r2.length ≤ n := by
            have hc := congrArg List.length hsplit
            have hc2 := congrArg List.length hsplit2
            rw [List.length_append] at hc hc2
            have h1 := List.length_pos.mpr hwne
            have h2 := List.length_pos.mpr hzne
            rw [hrr] at hc
            simp only [List.length_cons] at hc hc2 hl
            omega
          have hlast' : r2.getLast? = some 0 := by
            refine getLast_zero_suffix z r2 hr2 ?_
            rw [hsplit2, ← hrr]
            exact getLast_zero_suffix w r hrne (by rw [hsplit]; exact hlast)
          obtain ⟨us₁, hwf₁, hg₁, heq₁, hexp₁⟩ :=
            ih r2 hlen2 hlast' (O ++ us₀.flatMap CUnit.bytes)
          refine ⟨us₀ ++ us₁, ?_, runsGuarded_append _ _ hg₀ hg₁, ?_, ?_⟩
          · intro u hu
            rcases List.mem_append.mp hu with hu | hu
            · exact hwf₀ u hu
            · exact hwf₁ u hu
          · rw [heq₁]
            refine encoderEqOfFields _ _ ?_ rfl rfl
            show O ++ us₀.flatMap CUnit.bytes ++ us₁.flatMap CUnit.bytes = _
            simp [List.flatMap_append, List.append_assoc]
          · rw [List.flatMap_append, hexp₀', hexp₁, ← hsplit, hrr, ← hsplit2]
            simp [List.append_assoc]

/-- The output of the encoder on `S` is the byte rendering of a
well-formed, run-guarded unit list whose expansion is `S` followed by the
appended zero. -/
theorem encode_units (S : List Nat) :
    ∃ us : List CUnit,
      (∀ u ∈ us, u.WF) ∧ RunsGuarded 0 us ∧
      (Encoder.init.encode S).out = us.flatMap CUnit.bytes ∧
      us.flatMap CUnit.expand = S ++ [0] := by
  obtain ⟨us, hwf, hg, heq, hexp⟩ :=
    encodeFold_units (S ++ [0]).length (S ++ [0]) (Nat.le_refl _)
      (by rw [List.getLast?_append]; rfl) []
  have heq2 : Encoder.init.encode S = ⟨[] ++ us.flatMap CUnit.bytes, [], []⟩ :=
    heq
  refine ⟨us, hwf, hg, ?_, hexp⟩
  rw [heq2]
  simp

/-- Reading the 16-bit length from a long enough prefix agrees with reading
it from the full frame. -/
theorem be16_prefix (S P T : List Nat) (hT : P ++ T = S ++ [0])
    (h2 : 2 ≤ P.length) (hS2 : 2 ≤ S.length) : be16 P = be16 S := by
  have h0 : P.getD 0 0 = S.getD 0 0 := by
    have e1 : (P ++ T).getD 0 0 = P.getD 0 0 :=
      List.getD_append _ _ _ _ (by omega)
    have e2 : (S ++ [0]).getD 0 0 = S.getD 0 0 :=
      List.getD_append _ _ _ _ (by omega)
    rw [← e1, ← e2, hT]
  have h1 : P.getD 1 0 = S.getD 1 0 := by
    have e1 : (P ++ T).getD 1 0 = P.getD 1 0 :=
      List.getD_append _ _ _ _ (by omega)
    have e2 : (S ++ [0]).getD 1 0 = S.getD 1 0 :=
      List.getD_append _ _ _ _ (by omega)
    rw [← e1, ← e2, hT]
  rw [be16, be16, h0, h1]

/-- One step of the feed loop. -/
theorem decodeUntil_cons (d : Decoder) (b : Nat) (bs : List Nat) :
    decodeUntil d (b :: bs) =
      if (d.decode b).2 = 0 then decodeUntil (d.decode b).1 bs
      else d.decode b := rfl

/-- `decode` on a literal byte appends it and decrements the counter. -/
theorem decode_literal (inc out : List Nat) (r z : Nat) (L : Option Nat)
    (b : Nat) (hr : r ≠ 0) :
    Decoder.decode ⟨inc, out, r, z, L⟩ b =
      Decoder.phases ⟨inc ++ [b], out ++ [b], r - 1, z, L⟩ 0 := by
  simp only [Decoder.decode]
  rw [if_neg hr]

/-- `decode` on a `0xE0 + n` code byte. -/
theorem decode_code_withTwo (inc out : List Nat) (z : Nat) (L : Option Nat)
    (b : Nat) (h1 : 0xe0 ≤ b) (h2 : b < 0xff) :
    Decoder.decode ⟨inc, out, 0, z, L⟩ b =
      Decoder.phases ⟨inc ++ [b], out, b - 0xe0, 2, L⟩ 0 := by
  simp only [Decoder.decode]
  rw [if_pos trivial, if_neg (by omega), if_pos h1]

/-- `decode` on a zero-run code byte (`0xD3 .. 0xDF`). -/
theorem decode_code_run (inc out : List Nat) (z : Nat) (L : Option Nat)
    (b : Nat) (h1 : 0xd2 < b) (h2 : b < 0xe0) :
    Decoder.decode ⟨inc, out, 0, z, L⟩ b =
      Decoder.phases ⟨inc ++ [b], out, 0, b - 0xd0, L⟩ 0 := by
  simp only [Decoder.decode]
  rw [if_pos trivial, if_neg (by omega), if_neg (by omega), if_pos h1]

/-- `decode` on the long-block code byte `0xD0`. -/
theorem decode_code_long (inc out : List Nat) (z : Nat) (L : Option Nat) :
    Decoder.decode ⟨inc, out, 0, z, L⟩ 0xd0 =
      Decoder.phases ⟨inc ++ [0xd0], out, 0xcf, z, L⟩ 0 := by
  simp only [Decoder.decode]
  rw [if_pos trivial]
  norm_num

/-- `decode` on a small code byte (`0x01 .. 0xCF`). -/
theorem decode_code_small (inc out : List Nat) (z : Nat) (L : Option Nat)
    (b : Nat) (h1 : 0 < b) (h2 : b ≤ 0xcf) :
    Decoder.decode ⟨inc, out, 0, z, L⟩ b =
      Decoder.phases ⟨inc ++ [b], out, b - 1, 1, L⟩ 0 := by
  simp only [Decoder.decode]
  rw [if_pos trivial, if_neg (by omega), if_neg (by omega), if_neg (by omega),
    if_neg (by omega), if_neg (by omega), if_pos h1]

/-- `phases` with no pending literals and too little output: the zeros are
flushed and the length stays unknown. -/
theorem phases_done_none (inc out : List Nat) (z : Nat) (ret : Int)
    (h2 : ¬ 2 ≤ (out ++ List.replicate z 0).length) :
    Decoder.phases ⟨inc, out, 0, z, none⟩ ret =
      (⟨inc, out ++ List.replicate z 0, 0, 0, none⟩, ret) := by
  simp only [Decoder.phases]
  rw [if_pos trivial]
  rw [if_neg h2]

/-- `phases` with no pending literals reaching two output octets: the zeros
are flushed and the length is extracted. -/
theorem phases_done_none_set (inc out : List Nat) (z : Nat) (ret : Int)
    (h2 : 2 ≤ (out ++ List.replicate z 0).length) :
    Decoder.phases ⟨inc, out, 0, z, none⟩ ret =
      (⟨inc, out ++ List.replicate z 0, 0, 0,
        some (be16 (out ++ List.replicate z 0) + 5)⟩, ret) := by
  simp only [Decoder.phases]
  rw [if_pos trivial]
  rw [if_pos h2]

/-- `phases` with the length known and not yet exceeded. -/
theorem phases_done_some_stay (inc out : List Nat) (z n : Nat) (ret : Int)
    (h : ¬ n < (out ++ List.replicate z 0).length) :
    Decoder.phases ⟨inc, out, 0, z, some n⟩ ret =
      (⟨inc, out ++ List.replicate z 0, 0, 0, some n⟩, ret) := by
  simp only [Decoder.phases]
  rw [if_pos trivial]
  dsimp only
  rw [if_neg h]

/-- `phases` with the length known and exceeded: the frame is complete. -/
theorem phases_done_some_fire (inc out : List Nat) (z n : Nat) (ret : Int)
    (h : n < (out ++ List.replicate z 0).length) :
    Decoder.phases ⟨inc, out, 0, z, some n⟩ ret =
      (⟨inc, (out ++ List.replicate z 0).dropLast, 0, 0, some n⟩, (n : Int)) := by
  simp only [Decoder.phases]
  rw [if_pos trivial]
  dsimp only
  rw [if_pos h]

/-- `phases` with literals still pending and too little output. -/
theorem phases_pending_none (inc out : List Nat) (r z : Nat) (ret : Int)
    (hr : r ≠ 0) (h2 : ¬ 2 ≤ out.length) :
    Decoder.phases ⟨inc, out, r, z, none⟩ ret =
      (⟨inc, out, r, z, none⟩, ret) := by
  simp only [Decoder.phases]
  rw [if_neg hr]
  rw [if_neg h2]

/-- `phases` with literals still pending and two output octets: the length
is extracted. -/
theorem phases_pending_none_set (inc out : List Nat) (r z : Nat) (ret : Int)
    (hr : r ≠ 0) (h2 : 2 ≤ out.length) :
    Decoder.phases ⟨inc, out, r, z, none⟩ ret =
      (⟨inc, out, r, z, some (be16 out + 5)⟩, ret) := by
  simp only [Decoder.phases]
  rw [if_neg hr]
  rw [if_pos h2]

/-- `phases` with literals still pending and the length not exceeded. -/
theorem phases_pending_some_stay (inc out : List Nat) (r z n : Nat) (ret : Int)
    (hr : r ≠ 0) (h : ¬ n < out.length) :
    Decoder.phases ⟨inc, out, r, z, some n⟩ ret =
      (⟨inc, out, r, z, some n⟩, ret) := by
  simp only [Decoder.phases]
  rw [if_neg hr]
  dsimp only
  rw [if_neg h]

/-- Feeding the pending literal bytes of a code unit: the decoder appends
them one at a time, flushes the announced zeros with the last one, extracts
the message length as soon as two octets are out, and completes the frame
exactly when the output exceeds the message length. -/
theorem feed_literals (S : List Nat) (hS5 : 5 ≤ S.length)
    (hlenS : S.length = 256 * S.getD 0 0 + S.getD 1 0 + 5) :
    ∀ (c : List Nat), c ≠ [] → ∀ (inc O T : List Nat) (z : Nat) (L : Option Nat),
      z ≤ 2 →
      L = (if 2 ≤ O.length then some S.length else none) →
      (O ++ (c ++ List.replicate z 0)) ++ T = S ++ [0] →
      (((O ++ (c ++ List.replicate z 0)).length ≤ S.length →
        ∃ d' : Decoder, DecInv S (O ++ (c ++ List.replicate z 0)) d' ∧
          ∀ rest, decodeUntil ⟨inc, O, c.length, z, L⟩ (c ++ rest) =
            decodeUntil d' rest) ∧
      ((O ++ (c ++ List.replicate z 0)).length = S.length + 1 →
        ∃ d'' : Decoder, d''.out = S ∧
          ∀ rest, decodeUntil ⟨inc, O, c.length, z, L⟩ (c ++ rest) =
            (d'', (S.length : Int)))) := by
  intro c
  induction c with
  | nil =>
    intro h
    exact absurd rfl h
  | cons b c' ihc =>
    intro _ inc O T z L hz2 hL hpre
    have hlen : O.length + (c'.length + 1 + z) + T.length = S.length + 1 := by
      have h := congrArg List.length hpre
      simp only [List.length_append, List.length_cons, List.length_nil,
        List.length_replicate] at h
      omega
    by_cases hc' : c' = []
    · subst hc'
      simp only [List.length_nil] at hlen
      have hdec : Decoder.decode ⟨inc, O, ([b] : List Nat).length, z, L⟩ b =
          Decoder.phases ⟨inc ++ [b], O ++ [b], 0, z, L⟩ 0 := by
        rw [decode_literal inc O ([b] : List Nat).length z L b (by simp)]
        norm_num
      by_cases h2O : 2 ≤ O.length
      · have hLs : L = some S.length := by rw [hL, if_pos h2O]
        subst hLs
        constructor
        · intro hnf
          have hnofire : ¬ S.length <
              ((O ++ [b]) ++ List.replicate z 0).length := by
            simp only [List.length_append, List.length_cons, List.length_nil,
              List.length_replicate] at hnf ⊢
            omega
          refine ⟨⟨inc ++ [b], (O ++ [b]) ++ List.replicate z 0, 0, 0,
            some S.length⟩, ?_, ?_⟩
          · refine ⟨by simp, rfl, rfl, ?_⟩
            rw [if_pos (by simp only [List.length_append, List.length_cons,
              List.length_nil, List.length_replicate]; omega)]
          · intro rest
            rw [List.cons_append, decodeUntil_cons, hdec,
              phases_done_some_stay _ _ _ _ _ hnofire]
            simp
        · intro hf
          have hfire : S.length <
              ((O ++ [b]) ++ List.replicate z 0).length := by
            simp only [List.length_append, List.length_cons, List.length_nil,
              List.length_replicate] at hf ⊢
            omega
          have hT0 : T = [] := by
            refine List.length_eq_zero.mp ?_
            simp only [List.length_append, List.length_cons, List.length_nil,
              List.length_replicate] at hf
            omega
          have hX : (O ++ [b]) ++ List.replicate z 0 = S ++ [0] := by
            have h := hpre
            rw [hT0, List.append_nil] at h
            rw [← h]
            simp [List.append_assoc]
          refine ⟨⟨inc ++ [b], ((O ++ [b]) ++ List.replicate z 0).dropLast,
            0, 0, some S.length⟩, ?_, ?_⟩
          · show ((O ++ [b]) ++ List.replicate z 0).dropLast = S
            rw [hX]
            simp
          · intro rest
            rw [List.cons_append, decodeUntil_cons, hdec,
              phases_done_some_fire _ _ _ _ _ hfire]
            have hzne : ¬((S.length : Int) = 0) := by omega
            simp [hzne]
      · have hLn : L = none := by rw [hL, if_neg h2O]
        subst hLn
        by_cases hset : 2 ≤ ((O ++ [b]) ++ List.replicate z 0).length
        · have hbe : be16 ((O ++ [b]) ++ List.replicate z 0) = be16 S := by
            refine be16_prefix S _ T ?_ hset (by omega)
            rw [← hpre]
            simp [List.append_assoc]
          have hbeS : be16 ((O ++ [b]) ++ List.replicate z 0) + 5 =
              S.length := by
            rw [hbe]
            simp only [be16]
            omega
          constructor
          · intro hnf
            refine ⟨⟨inc ++ [b], (O ++ [b]) ++ List.replicate z 0, 0, 0,
              some (be16 ((O ++ [b]) ++ List.replicate z 0) + 5)⟩, ?_, ?_⟩
            · refine ⟨by simp, rfl, rfl, ?_⟩
              rw [if_pos (by simp only [List.length_append, List.length_cons,
                List.length_nil, List.length_replicate] at hset ⊢; omega)]
              rw [hbeS]
            · intro rest
              rw [List.cons_append, decodeUntil_cons, hdec,
                phases_done_none_set _ _ _ _ hset]
              simp
          · intro hf
            exfalso
            simp only [List.length_append, List.length_cons, List.length_nil,
              List.length_replicate] at hf
            omega
        · constructor
          · intro hnf
            have hlt : ¬ 2 ≤ (O ++ ([b] ++ List.replicate z 0)).length := by
              simp only [List.length_append, List.length_cons, List.length_nil,
                List.length_replicate] at hset ⊢
              omega
            refine ⟨⟨inc ++ [b], (O ++ [b]) ++ List.replicate z 0, 0, 0,
              none⟩, ?_, ?_⟩
            · refine ⟨by simp, rfl, rfl, ?_⟩
              rw [if_neg hlt]
            · intro rest
              rw [List.cons_append, decodeUntil_cons, hdec,
                phases_done_none _ _ _ _ hset]
              simp
          · intro hf
            exfalso
            simp only [List.length_append, List.length_cons, List.length_nil,
              List.length_replicate] at hf hset
            omega
    · have hc'len : c'.length ≠ 0 := by
        intro h0
        exact hc' (List.length_eq_zero.mp h0)
      have hdec : Decoder.decode ⟨inc, O, (b :: c').length, z, L⟩ b =
          Decoder.phases ⟨inc ++ [b], O ++ [b], c'.length, z, L⟩ 0 := by
        rw [decode_literal inc O (b :: c').length z L b (by simp)]
        simp
      have hpre' : ((O ++ [b]) ++ (c' ++ List.replicate z 0)) ++ T =
          S ++ [0] := by
        rw [← hpre]
        simp [List.append_assoc]
      have hXX : (O ++ [b]) ++ (c' ++ List.replicate z 0) =
          O ++ ((b :: c') ++ List.replicate z 0) := by
        simp [List.append_assoc]
      by_cases h2O : 2 ≤ O.length
      · have hLs : L = some S.length := by rw [hL, if_pos h2O]
        subst hLs
        have hnotlt : ¬ S.length < (O ++ [b]).length := by
          simp only [List.length_append, List.length_cons, List.length_nil]
          have hc1 : 1 ≤ c'.length := Nat.one_le_iff_ne_zero.mpr hc'len
          omega
        have hone : ∀ r2, decodeUntil ⟨inc, O, (b :: c').length, z,
            some S.length⟩ (b :: r2) =
            decodeUntil ⟨inc ++ [b], O ++ [b], c'.length, z,
              some S.length⟩ r2 := by
          intro r2
          rw [decodeUntil_cons, hdec,
            phases_pending_some_stay _ _ _ _ _ _ hc'len hnotlt]
          simp
        have hL' : (some S.length : Option Nat) =
            (if 2 ≤ (O ++ [b]).length then some S.length else none) := by
          rw [if_pos (by simp only [List.length_append, List.length_cons,
            List.length_nil]; omega)]
        obtain ⟨ihA, ihB⟩ := ihc hc' (inc ++ [b]) (O ++ [b]) T z
          (some S.length) hz2 hL' hpre'
        constructor
        · intro hnf
          obtain ⟨d', hInv, hrun⟩ := ihA (by rw [hXX]; exact hnf)
          refine ⟨d', ?_, ?_⟩
          · rw [← hXX]
            exact hInv
          · intro rest
            rw [List.cons_append, hone, hrun]
        · intro hf
          obtain ⟨d'', hout, hrun⟩ := ihB (by rw [hXX]; exact hf)
          refine ⟨d'', hout, ?_⟩
          intro rest
          rw [List.cons_append, hone, hrun]
      · have hLn : L = none := by rw [hL, if_neg h2O]
        subst hLn
        by_cases h1O : O.length = 1
        · have h2b : 2 ≤ (O ++ [b]).length := by
            simp only [List.length_append, List.length_cons, List.length_nil]
            omega
          have hbe : be16 (O ++ [b]) = be16 S := by
            refine be16_prefix S _ ((c' ++ List.replicate z 0) ++ T) ?_ h2b
              (by omega)
            rw [← hpre']
            simp [List.append_assoc]
          have hbeS : be16 (O ++ [b]) + 5 = S.length := by
            rw [hbe]
            simp only [be16]
            omega
          have hone : ∀ r2, decodeUntil ⟨inc, O, (b :: c').length, z, none⟩
              (b :: r2) =
              decodeUntil ⟨inc ++ [b], O ++ [b], c'.length, z,
                some S.length⟩ r2 := by
            intro r2
            rw [decodeUntil_cons, hdec,
              phases_pending_none_set _ _ _ _ _ hc'len h2b, hbeS]
            simp
          have hL' : (some S.length : Option Nat) =
              (if 2 ≤ (O ++ [b]).length then some S.length else none) := by
            rw [if_pos h2b]
          obtain ⟨ihA, ihB⟩ := ihc hc' (inc ++ [b]) (O ++ [b]) T z
            (some S.length) hz2 hL' hpre'
          constructor
          · intro hnf
            obtain ⟨d', hInv, hrun⟩ := ihA (by rw [hXX]; exact hnf)
            refine ⟨d', ?_, ?_⟩
            · rw [← hXX]
              exact hInv
            · intro rest
              rw [List.cons_append, hone, hrun]
          · intro hf
            obtain ⟨d'', hout, hrun⟩ := ihB (by rw [hXX]; exact hf)
            refine ⟨d'', hout, ?_⟩
            intro rest
            rw [List.cons_append, hone, hrun]
        · have hn2 : ¬ 2 ≤ (O ++ [b]).length := by
            simp only [List.length_append, List.length_cons, List.length_nil]
            omega
          have hone : ∀ r2, decodeUntil ⟨inc, O, (b :: c').length, z, none⟩
              (b :: r2) =
              decodeUntil ⟨inc ++ [b], O ++ [b], c'.length, z, none⟩ r2 := by
            intro r2
            rw [decodeUntil_cons, hdec,
              phases_pending_none _ _ _ _ _ hc'len hn2]
            simp
          have hL' : (none : Option Nat) =
              (if 2 ≤ (O ++ [b]).length then some S.length else none) := by
            rw [if_neg hn2]
          obtain ⟨ihA, ihB⟩ := ihc hc' (inc ++ [b]) (O ++ [b]) T z
            none hz2 hL' hpre'
          constructor
          · intro hnf
            obtain ⟨d', hInv, hrun⟩ := ihA (by rw [hXX]; exact hnf)
            refine ⟨d', ?_, ?_⟩
            · rw [← hXX]
              exact hInv
            · intro rest
              rw [List.cons_append, hone, hrun]
          · intro hf
            obtain ⟨d'', hout, hrun⟩ := ihB (by rw [hXX]; exact hf)
            refine ⟨d'', hout, ?_⟩
            intro rest
            rw [List.cons_append, hone, hrun]

/-- A decoder satisfying the boundary invariant is determined by its input
log. -/
theorem decInv_eta (S X : List Nat) (d : Decoder) (h : DecInv S X d) :
    d = ⟨d.inc, X, 0, 0,
      if 2 ≤ X.length then some S.length else none⟩ := by
  obtain ⟨i, o, r, z, l⟩ := d
  obtain ⟨h1, h2, h3, h4⟩ := h
  simp only [Decoder.mk.injEq]
  exact ⟨trivial, h1, h2, h3, h4⟩

/-- Processing one code unit from a boundary state: while the expansion
stays within the frame the decoder reaches the next boundary state, and
when it crosses the frame length by one the decoder completes, returning
the message length with the reconstructed frame as output. -/
theorem decode_unit (S : List Nat) (hS5 : 5 ≤ S.length)
    (hlenS : S.length = 256 * S.getD 0 0 + S.getD 1 0 + 5)
    (u : CUnit) (hwf : u.WF) (O T inc : List Nat) (L : Option Nat)
    (hL : L = (if 2 ≤ O.length then some S.length else none))
    (hpre : (O ++ u.expand) ++ T = S ++ [0])
    (hguard : u.isRun = true → 2 ≤ O.length) :
    ((O ++ u.expand).length ≤ S.length →
      ∃ d' : Decoder, DecInv S (O ++ u.expand) d' ∧
        ∀ rest, decodeUntil ⟨inc, O, 0, 0, L⟩ (u.bytes ++ rest) =
          decodeUntil d' rest) ∧
    ((O ++ u.expand).length = S.length + 1 →
      ∃ d'' : Decoder, d''.out = S ∧
        ∀ rest, decodeUntil ⟨inc, O, 0, 0, L⟩ (u.bytes ++ rest) =
          (d'', (S.length : Int))) := by
  cases u with
  | long c =>
    have hclen : c.length = 0xcf := hwf
    have hcne : c ≠ [] := by
      intro h0
      rw [h0] at hclen
      cases hclen
    have hlenTot : O.length + c.length + T.length = S.length + 1 := by
      have h := congrArg List.length hpre
      simp only [List.length_append, List.length_cons, List.length_nil,
        CUnit.expand] at h
      omega
    have hXE : O ++ (CUnit.long c).expand =
        O ++ (c ++ List.replicate 0 0) := by
      simp [CUnit.expand]
    have hpreF : (O ++ (c ++ List.replicate 0 0)) ++ T = S ++ [0] := by
      rw [← hpre, ← hXE]
    by_cases h2O : 2 ≤ O.length
    · rw [if_pos h2O] at hL
      subst hL
      have hnolt : ¬ S.length < O.length := by omega
      have hone : ∀ r2, decodeUntil ⟨inc, O, 0, 0, some S.length⟩
          (0xd0 :: r2) = decodeUntil ⟨inc ++ [0xd0], O, c.length, 0,
            some S.length⟩ r2 := by
        intro r2
        rw [decodeUntil_cons, decode_code_long,
          phases_pending_some_stay _ _ _ _ _ _ (by norm_num) hnolt]
        simp [hclen]
      have hLa : (some S.length : Option Nat) =
          (if 2 ≤ O.length then some S.length else none) := by
        rw [if_pos h2O]
      obtain ⟨ihA, ihB⟩ := feed_literals S hS5 hlenS c hcne (inc ++ [0xd0])
        O T 0 (some S.length) (by omega) hLa hpreF
      constructor
      · intro hnf
        obtain ⟨d', hInv, hrun⟩ := ihA (by rw [← hXE]; exact hnf)
        refine ⟨d', by rw [hXE]; exact hInv, ?_⟩
        intro rest
        rw [show (CUnit.long c).bytes ++ rest = 0xd0 :: (c ++ rest) from rfl,
          hone, hrun]
      · intro hf
        obtain ⟨d'', hout, hrun⟩ := ihB (by rw [← hXE]; exact hf)
        refine ⟨d'', hout, ?_⟩
        intro rest
        rw [show (CUnit.long c).bytes ++ rest = 0xd0 :: (c ++ rest) from rfl,
          hone, hrun]
    · rw [if_neg h2O] at hL
      subst hL
      have hone : ∀ r2, decodeUntil ⟨inc, O, 0, 0, none⟩ (0xd0 :: r2) =
          decodeUntil ⟨inc ++ [0xd0], O, c.length, 0, none⟩ r2 := by
        intro r2
        rw [decodeUntil_cons, decode_code_long,
          phases_pending_none _ _ _ _ _ (by norm_num) h2O]
        simp [hclen]
      have hLa : (none : Option Nat) =
          (if 2 ≤ O.length then some S.length else none) := by
        rw [if_neg h2O]
      obtain ⟨ihA, ihB⟩ := feed_literals S hS5 hlenS c hcne (inc ++ [0xd0])
        O T 0 none (by omega) hLa hpreF
      constructor
      · intro hnf
        obtain ⟨d', hInv, hrun⟩ := ihA (by rw [← hXE]; exact hnf)
        refine ⟨d', by rw [hXE]; exact hInv, ?_⟩
        intro rest
        rw [show (CUnit.long c).bytes ++ rest = 0xd0 :: (c ++ rest) from rfl,
          hone, hrun]
      · intro hf
        obtain ⟨d'', hout, hrun⟩ := ihB (by rw [← hXE]; exact hf)
        refine ⟨d'', hout, ?_⟩
        intro rest
        rw [show (CUnit.long c).bytes ++ rest = 0xd0 :: (c ++ rest) from rfl,
          hone, hrun]
  | withTwo dd =>
    have hdlen : dd.length ≤ 0x1e := hwf
    have hlenTot : O.length + (dd.length + 2) + T.length = S.length + 1 := by
      have h := congrArg List.length hpre
      simp only [List.length_append, List.length_cons, List.length_nil,
        CUnit.expand] at h
      omega
    by_cases hdd : dd = []
    · subst hdd
      have hstep : ∀ L2, Decoder.decode ⟨inc, O, 0, 0, L2⟩ 0xe0 =
          Decoder.phases ⟨inc ++ [0xe0], O, 0, 2, L2⟩ 0 := by
        intro L2
        rw [decode_code_withTwo inc O 0 L2 0xe0 (by norm_num) (by norm_num)]
      simp only [List.length_nil] at hlenTot
      by_cases h2O : 2 ≤ O.length
      · rw [if_pos h2O] at hL
        subst hL
        constructor
        · intro hnf
          have hnofire : ¬ S.length < (O ++ List.replicate 2 0).length := by
            have h := hnf
            simp only [CUnit.expand, List.nil_append, List.length_append,
              List.length_cons, List.length_nil] at h
            simp only [List.length_append, List.length_replicate]
            omega
          refine ⟨⟨inc ++ [0xe0], O ++ List.replicate 2 0, 0, 0,
            some S.length⟩, ?_, ?_⟩
          · refine ⟨rfl, rfl, rfl, ?_⟩
            rw [if_pos (by simp only [CUnit.expand, List.nil_append,
              List.length_append, List.length_cons, List.length_nil]; omega)]
          · intro rest
            rw [show (CUnit.withTwo []).bytes ++ rest = 0xe0 :: rest from rfl,
              decodeUntil_cons, hstep, phases_done_some_stay _ _ _ _ _ hnofire]
            simp
        · intro hf
          have hfire : S.length < (O ++ List.replicate 2 0).length := by
            have h := hf
            simp only [CUnit.expand, List.nil_append, List.length_append,
              List.length_cons, List.length_nil] at h
            simp only [List.length_append, List.length_replicate]
            omega
          have hT0 : T = [] := by
            refine List.length_eq_zero.mp ?_
            have h := hf
            simp only [CUnit.expand, List.nil_append, List.length_append,
              List.length_cons, List.length_nil] at h
            omega
          have hX : O ++ List.replicate 2 0 = S ++ [0] := by
            have h := hpre
            rw [hT0, List.append_nil] at h
            exact h
          refine ⟨⟨inc ++ [0xe0], (O ++ List.replicate 2 0).dropLast, 0, 0,
            some S.length⟩, ?_, ?_⟩
          · show (O ++ List.replicate 2 0).dropLast = S
            rw [hX]
            simp
          · intro rest
            rw [show (CUnit.withTwo []).bytes ++ rest = 0xe0 :: rest from rfl,
              decodeUntil_cons, hstep, phases_done_some_fire _ _ _ _ _ hfire]
            have hzne : ¬((S.length : Int) = 0) := by omega
            simp [hzne]
      · rw [if_neg h2O] at hL
        subst hL
        have hset : 2 ≤ (O ++ List.replicate 2 0).length := by
          simp only [List.length_append, List.length_replicate]
          omega
        have hbe : be16 (O ++ List.replicate 2 0) = be16 S := by
          refine be16_prefix S _ T ?_ hset (by omega)
          rw [← hpre]
          rfl
        have hbeS : be16 (O ++ List.replicate 2 0) + 5 = S.length := by
          rw [hbe]
          simp only [be16]
          omega
        constructor
        · intro hnf
          refine ⟨⟨inc ++ [0xe0], O ++ List.replicate 2 0, 0, 0,
            some (be16 (O ++ List.replicate 2 0) + 5)⟩, ?_, ?_⟩
          · refine ⟨rfl, rfl, rfl, ?_⟩
            rw [if_pos (by simp only [CUnit.expand, List.nil_append,
              List.length_append, List.length_cons, List.length_nil]; omega)]
            rw [hbeS]
          · intro rest
            rw [show (CUnit.withTwo []).bytes ++ rest = 0xe0 :: rest from rfl,
              decodeUntil_cons, hstep, phases_done_none_set _ _ _ _ hset]
            simp
        · intro hf
          exfalso
          have h := hf
          simp only [CUnit.expand, List.nil_append, List.length_append,
            List.length_cons, List.length_nil] at h
          omega
    · have hdne' : dd.length ≠ 0 := fun h0 => hdd (List.length_eq_zero.mp h0)
      have hcode1 : 0xe0 ≤ 0xe0 + dd.length := by omega
      have hcode2 : 0xe0 + dd.length < 0xff := by omega
      have hrem : (0xe0 + dd.length) - 0xe0 = dd.length := by omega
      have hXE : O ++ (CUnit.withTwo dd).expand =
          O ++ (dd ++ List.replicate 2 0) := rfl
      have hpreF : (O ++ (dd ++ List.replicate 2 0)) ++ T = S ++ [0] := by
        rw [← hpre, ← hXE]
      by_cases h2O : 2 ≤ O.length
      · rw [if_pos h2O] at hL
        subst hL
        have hnolt : ¬ S.length < O.length := by omega
        have hone : ∀ r2, decodeUntil ⟨inc, O, 0, 0, some S.length⟩
            ((0xe0 + dd.length) :: r2) =
            decodeUntil ⟨inc ++ [0xe0 + dd.length], O, dd.length, 2,
              some S.length⟩ r2 := by
          intro r2
          rw [decodeUntil_cons,
            decode_code_withTwo inc O 0 (some S.length) _ hcode1 hcode2,
            hrem, phases_pending_some_stay _ _ _ _ _ _ hdne' hnolt]
          simp
        have hLa : (some S.length : Option Nat) =
            (if 2 ≤ O.length then some S.length else none) := by
          rw [if_pos h2O]
        obtain ⟨ihA, ihB⟩ := feed_literals S hS5 hlenS dd hdd
          (inc ++ [0xe0 + dd.length]) O T 2 (some S.length) (by omega)
          hLa hpreF
        constructor
        · intro hnf
          obtain ⟨d', hInv, hrun⟩ := ihA (by rw [← hXE]; exact hnf)
          refine ⟨d', by rw [hXE]; exact hInv, ?_⟩
          intro rest
          rw [show (CUnit.withTwo dd).bytes ++ rest =
            (0xe0 + dd.length) :: (dd ++ rest) from rfl, hone, hrun]
        · intro hf
          obtain ⟨d'', hout, hrun⟩ := ihB (by rw [← hXE]; exact hf)
          refine ⟨d'', hout, ?_⟩
          intro rest
          rw [show (CUnit.withTwo dd).bytes ++ rest =
            (0xe0 + dd.length) :: (dd ++ rest) from rfl, hone, hrun]
      · rw [if_neg h2O] at hL
        subst hL
        have hone : ∀ r2, decodeUntil ⟨inc, O, 0, 0, none⟩
            ((0xe0 + dd.length) :: r2) =
            decodeUntil ⟨inc ++ [0xe0 + dd.length], O, dd.length, 2,
              none⟩ r2 := by
          intro r2
          rw [decodeUntil_cons,
            decode_code_withTwo inc O 0 none _ hcode1 hcode2,
            hrem, phases_pending_none _ _ _ _ _ hdne' h2O]
          simp
        have hLa : (none : Option Nat) =
            (if 2 ≤ O.length then some S.length else none) := by
          rw [if_neg h2O]
        obtain ⟨ihA, ihB⟩ := feed_literals S hS5 hlenS dd hdd
          (inc ++ [0xe0 + dd.length]) O T 2 none (by omega) hLa hpreF
        constructor
        · intro hnf
          obtain ⟨d', hInv, hrun⟩ := ihA (by rw [← hXE]; exact hnf)
          refine ⟨d', by rw [hXE]; exact hInv, ?_⟩
          intro rest
          rw [show (CUnit.withTwo dd).bytes ++ rest =
            (0xe0 + dd.length) :: (dd ++ rest) from rfl, hone, hrun]
        · intro hf
          obtain ⟨d'', hout, hrun⟩ := ihB (by rw [← hXE]; exact hf)
          refine ⟨d'', hout, ?_⟩
          intro rest
          rw [show (CUnit.withTwo dd).bytes ++ rest =
            (0xe0 + dd.length) :: (dd ++ rest) from rfl, hone, hrun]
  | run z =>
    obtain ⟨hz3, hz15⟩ := hwf
    have h2O : 2 ≤ O.length := hguard rfl
    rw [if_pos h2O] at hL
    subst hL
    have hstep : Decoder.decode ⟨inc, O, 0, 0, some S.length⟩ (0xd0 + z) =
        Decoder.phases ⟨inc ++ [0xd0 + z], O, 0, z, some S.length⟩ 0 := by
      rw [decode_code_run inc O 0 (some S.length) _ (by omega) (by omega),
        show (0xd0 + z) - 0xd0 = z from by omega]
    constructor
    · intro hnf
      have hnofire : ¬ S.length < (O ++ List.replicate z 0).length := by
        have h := hnf
        simp only [CUnit.expand, List.length_append, List.length_replicate]
          at h ⊢
        omega
      refine ⟨⟨inc ++ [0xd0 + z], O ++ List.replicate z 0, 0, 0,
        some S.length⟩, ?_, ?_⟩
      · refine ⟨rfl, rfl, rfl, ?_⟩
        rw [if_pos (by simp only [CUnit.expand, List.length_append,
          List.length_replicate]; omega)]
      · intro rest
        rw [show (CUnit.run z).bytes ++ rest = (0xd0 + z) :: rest from rfl,
          decodeUntil_cons, hstep, phases_done_some_stay _ _ _ _ _ hnofire]
        simp
    · intro hf
      have hfire : S.length < (O ++ List.replicate z 0).length := by
        have h := hf
        simp only [CUnit.expand, List.length_append, List.length_replicate]
          at h ⊢
        omega
      have hT0 : T = [] := by
        refine List.length_eq_zero.mp ?_
        have h := congrArg List.length hpre
        have h2 := hf
        simp only [CUnit.expand, List.length_append, List.length_replicate,
          List.length_cons, List.length_nil] at h h2
        omega
      have hX : O ++ List.replicate z 0 = S ++ [0] := by
        have h := hpre
        rw [hT0, List.append_nil] at h
        exact h
      refine ⟨⟨inc ++ [0xd0 + z], (O ++ List.replicate z 0).dropLast, 0, 0,
        some S.length⟩, ?_, ?_⟩
      · show (O ++ List.replicate z 0).dropLast = S
        rw [hX]
        simp
      · intro rest
        rw [show (CUnit.run z).bytes ++ rest = (0xd0 + z) :: rest from rfl,
          decodeUntil_cons, hstep, phases_done_some_fire _ _ _ _ _ hfire]
        have hzne : ¬((S.length : Int) = 0) := by omega
        simp [hzne]
  | tail dd =>
    have hdlen : dd.length ≤ 0xce := hwf
    have hlenTot : O.length + (dd.length + 1) + T.length = S.length + 1 := by
      have h := congrArg List.length hpre
      simp only [List.length_append, List.length_cons, List.length_nil,
        CUnit.expand] at h
      omega
    by_cases hdd : dd = []
    · subst hdd
      have hstep : ∀ L2, Decoder.decode ⟨inc, O, 0, 0, L2⟩ 1 =
          Decoder.phases ⟨inc ++ [1], O, 0, 1, L2⟩ 0 := by
        intro L2
        rw [decode_code_small inc O 0 L2 1 (by norm_num) (by norm_num)]
      simp only [List.length_nil] at hlenTot
      by_cases h2O : 2 ≤ O.length
      · rw [if_pos h2O] at hL
        subst hL
        constructor
        · intro hnf
          have hnofire : ¬ S.length < (O ++ List.replicate 1 0).length := by
            have h := hnf
            simp only [CUnit.expand, List.nil_append, List.length_append,
              List.length_cons, List.length_nil] at h
            simp only [List.length_append, List.length_replicate]
            omega
          refine ⟨⟨inc ++ [1], O ++ List.replicate 1 0, 0, 0,
            some S.length⟩, ?_, ?_⟩
          · refine ⟨rfl, rfl, rfl, ?_⟩
            rw [if_pos (by simp only [CUnit.expand, List.nil_append,
              List.length_append, List.length_cons, List.length_nil]; omega)]
          · intro rest
            rw [show (CUnit.tail []).bytes ++ rest = 1 :: rest from rfl,
              decodeUntil_cons, hstep, phases_done_some_stay _ _ _ _ _ hnofire]
            simp
        · intro hf
          have hfire : S.length < (O ++ List.replicate 1 0).length := by
            have h := hf
            simp only [CUnit.expand, List.nil_append, List.length_append,
              List.length_cons, List.length_nil] at h
            simp only [List.length_append, List.length_replicate]
            omega
          have hT0 : T = [] := by
            refine List.length_eq_zero.mp ?_
            have h := hf
            simp only [CUnit.expand, List.nil_append, List.length_append,
              List.length_cons, List.length_nil] at h
            omega
          have hX : O ++ List.replicate 1 0 = S ++ [0] := by
            have h := hpre
            rw [hT0, List.append_nil] at h
            exact h
          refine ⟨⟨inc ++ [1], (O ++ List.replicate 1 0).dropLast, 0, 0,
            some S.length⟩, ?_, ?_⟩
          · show (O ++ List.replicate 1 0).dropLast = S
            rw [hX]
            simp
          · intro rest
            rw [show (CUnit.tail []).bytes ++ rest = 1 :: rest from rfl,
              decodeUntil_cons, hstep, phases_done_some_fire _ _ _ _ _ hfire]
            have hzne : ¬((S.length : Int) = 0) := by omega
            simp [hzne]
      · rw [if_neg h2O] at hL
        subst hL
        by_cases hset : 2 ≤ (O ++ List.replicate 1 0).length
        · have hbe : be16 (O ++ List.replicate 1 0) = be16 S := by
            refine be16_prefix S _ T ?_ hset (by omega)
            rw [← hpre]
            rfl
          have hbeS : be16 (O ++ List.replicate 1 0) + 5 = S.length := by
            rw [hbe]
            simp only [be16]
            omega
          constructor
          · intro hnf
            refine ⟨⟨inc ++ [1], O ++ List.replicate 1 0, 0, 0,
              some (be16 (O ++ List.replicate 1 0) + 5)⟩, ?_, ?_⟩
            · refine ⟨rfl, rfl, rfl, ?_⟩
              rw [if_pos (by simp only [List.length_append,
                List.length_replicate] at hset; simp only [CUnit.expand,
                List.nil_append, List.length_append, List.length_cons,
                List.length_nil]; omega)]
              rw [hbeS]
            · intro rest
              rw [show (CUnit.tail []).bytes ++ rest = 1 :: rest from rfl,
                decodeUntil_cons, hstep, phases_done_none_set _ _ _ _ hset]
              simp
          · intro hf
            exfalso
            have h := hf
            simp only [CUnit.expand, List.nil_append, List.length_append,
              List.length_cons, List.length_nil] at h
            omega
        · constructor
          · intro hnf
            have hlt : ¬ 2 ≤ (O ++ (CUnit.tail []).expand).length := by
              simp only [List.length_append, List.length_replicate] at hset
              simp only [CUnit.expand, List.nil_append, List.length_append,
                List.length_cons, List.length_nil]
              omega
            refine ⟨⟨inc ++ [1], O ++ List.replicate 1 0, 0, 0, none⟩,
              ?_, ?_⟩
            · refine ⟨rfl, rfl, rfl, ?_⟩
              rw [if_neg hlt]
            · intro rest
              rw [show (CUnit.tail []).bytes ++ rest = 1 :: rest from rfl,
                decodeUntil_cons, hstep, phases_done_none _ _ _ _ hset]
              simp
          · intro hf
            exfalso
            have h := hf
            simp only [CUnit.expand, List.nil_append, List.length_append,
              List.length_cons, List.length_nil] at h
            simp only [List.length_append, List.length_replicate] at hset
            omega
    · have hdne' : dd.length ≠ 0 := fun h0 => hdd (List.length_eq_zero.mp h0)
      have hcode1 : 0 < dd.length + 1 := by omega
      have hcode2 : dd.length + 1 ≤ 0xcf := by omega
      have hrem : dd.length + 1 - 1 = dd.length := by omega
      have hXE : O ++ (CUnit.tail dd).expand =
          O ++ (dd ++ List.replicate 1 0) := rfl
      have hpreF : (O ++ (dd ++ List.replicate 1 0)) ++ T = S ++ [0] := by
        rw [← hpre, ← hXE]
      by_cases h2O : 2 ≤ O.length
      · rw [if_pos h2O] at hL
        subst hL
        have hnolt : ¬ S.length < O.length := by omega
        have hone : ∀ r2, decodeUntil ⟨inc, O, 0, 0, some S.length⟩
            ((dd.length + 1) :: r2) =
            decodeUntil ⟨inc ++ [dd.length + 1], O, dd.length, 1,
              some S.length⟩ r2 := by
          intro r2
          rw [decodeUntil_cons,
            decode_code_small inc O 0 (some S.length) _ hcode1 hcode2,
            hrem, phases_pending_some_stay _ _ _ _ _ _ hdne' hnolt]
          simp
        have hLa : (some S.length : Option Nat) =
            (if 2 ≤ O.length then some S.length else none) := by
          rw [if_pos h2O]
        obtain ⟨ihA, ihB⟩ := feed_literals S hS5 hlenS dd hdd
          (inc ++ [dd.length + 1]) O T 1 (some S.length) (by omega)
          hLa hpreF
        constructor
        · intro hnf
          obtain ⟨d', hInv, hrun⟩ := ihA (by rw [← hXE]; exact hnf)
          refine ⟨d', by rw [hXE]; exact hInv, ?_⟩
          intro rest
          rw [show (CUnit.tail dd).bytes ++ rest =
            (dd.length + 1) :: (dd ++ rest) from rfl, hone, hrun]
        · intro hf
          obtain ⟨d'', hout, hrun⟩ := ihB (by rw [← hXE]; exact hf)
          refine ⟨d'', hout, ?_⟩
          intro rest
          rw [show (CUnit.tail dd).bytes ++ rest =
            (dd.length + 1) :: (dd ++ rest) from rfl, hone, hrun]
      · rw [if_neg h2O] at hL
        subst hL
        have hone : ∀ r2, decodeUntil ⟨inc, O, 0, 0, none⟩
            ((dd.length + 1) :: r2) =
            decodeUntil ⟨inc ++ [dd.length + 1], O, dd.length, 1, none⟩ r2 := by
          intro r2
          rw [decodeUntil_cons,
            decode_code_small inc O 0 none _ hcode1 hcode2,
            hrem, phases_pending_none _ _ _ _ _ hdne' h2O]
          simp
        have hLa : (none : Option Nat) =
            (if 2 ≤ O.length then some S.length else none) := by
          rw [if_neg h2O]
        obtain ⟨ihA, ihB⟩ := feed_literals S hS5 hlenS dd hdd
          (inc ++ [dd.length + 1]) O T 1 none (by omega) hLa hpreF
        constructor
        · intro hnf
          obtain ⟨d', hInv, hrun⟩ := ihA (by rw [← hXE]; exact hnf)
          refine ⟨d', by rw [hXE]; exact hInv, ?_⟩
          intro rest
          rw [show (CUnit.tail dd).bytes ++ rest =
            (dd.length + 1) :: (dd ++ rest) from rfl, hone, hrun]
        · intro hf
          obtain ⟨d'', hout, hrun⟩ := ihB (by rw [← hXE]; exact hf)
          refine ⟨d'', hout, ?_⟩
          intro rest
          rw [show (CUnit.tail dd).bytes ++ rest =
            (dd.length + 1) :: (dd ++ rest) from rfl, hone, hrun]

/-- Every well-formed unit expands to at least one octet. -/
theorem expand_pos (u : CUnit) (h : u.WF) : 1 ≤ u.expand.length := by
  cases u with
  | long c =>
    have hc : c.length = 0xcf := h
    simp only [CUnit.expand]
    omega
  | withTwo d =>
    simp only [CUnit.expand, List.length_append, List.length_cons,
      List.length_nil]
    omega
  | run z =>
    obtain ⟨h3, _⟩ := h
    simp only [CUnit.expand, List.length_replicate]
    omega
  | tail d =>
    simp only [CUnit.expand, List.length_append, List.length_cons,
      List.length_nil]
    omega

/-- A non-empty list of well-formed units expands to at least one octet. -/
theorem expand_flat_pos (us : List CUnit) (hne : us ≠ [])
    (hwf : ∀ u ∈ us, u.WF) : 1 ≤ (us.flatMap CUnit.expand).length := by
  obtain ⟨u, us', rfl⟩ := List.exists_cons_of_ne_nil hne
  simp only [List.flatMap_cons, List.length_append]
  have := expand_pos u (hwf u (by simp))
  omega

/-- Feeding the rendered bytes of a well-formed, guarded unit list whose
expansion completes the frame: the decoder returns the message length with
the frame as output. -/
theorem decode_units (S : List Nat) (hS5 : 5 ≤ S.length)
    (hlenS : S.length = 256 * S.getD 0 0 + S.getD 1 0 + 5) :
    ∀ (us : List CUnit), us ≠ [] →
      ∀ (O inc : List Nat) (L : Option Nat),
        L = (if 2 ≤ O.length then some S.length else none) →
        (∀ u ∈ us, u.WF) →
        (∀ us₁ u us₂, us = us₁ ++ u :: us₂ → u.isRun = true →
          2 ≤ O.length + (us₁.flatMap CUnit.expand).length) →
        O ++ us.flatMap CUnit.expand = S ++ [0] →
        ∃ d'' : Decoder, d''.out = S ∧
          decodeUntil ⟨inc, O, 0, 0, L⟩ (us.flatMap CUnit.bytes) =
            (d'', (S.length : Int)) := by
  intro us
  induction us with
  | nil =>
    intro h
    exact absurd rfl h
  | cons u us' ihu =>
    intro _ O inc L hL hwf hg hexp
    have hupre : (O ++ u.expand) ++ us'.flatMap CUnit.expand = S ++ [0] := by
      rw [← hexp]
      simp [List.append_assoc]
    have hguard : u.isRun = true → 2 ≤ O.length := by
      intro hrun
      have := hg [] u us' rfl hrun
      simpa using this
    by_cases hus' : us' = []
    · subst hus'
      have hX : O ++ u.expand = S ++ [0] := by
        simpa using hupre
      have hfin : (O ++ u.expand).length = S.length + 1 := by
        have := congrArg List.length hX
        simpa using this
      obtain ⟨_, hB⟩ := decode_unit S hS5 hlenS u (hwf u (by simp)) O
        [] inc L hL (by simpa using hupre) hguard
      obtain ⟨d'', hout, hrun⟩ := hB hfin
      refine ⟨d'', hout, ?_⟩
      have h := hrun []
      rw [List.append_nil] at h
      rw [show (u :: ([] : List CUnit)).flatMap CUnit.bytes = u.bytes from
        by simp]
      exact h
    · have hnf : (O ++ u.expand).length ≤ S.length := by
        have h := congrArg List.length hupre
        have hp := expand_flat_pos us' hus' (fun v hv => hwf v (by simp [hv]))
        simp only [List.length_append, List.length_cons, List.length_nil] at h
        simp only [List.length_append]
        omega
      obtain ⟨hA, _⟩ := decode_unit S hS5 hlenS u (hwf u (by simp)) O
        (us'.flatMap CUnit.expand) inc L hL hupre hguard
      obtain ⟨d', hInv, hrun⟩ := hA hnf
      have heta := decInv_eta S (O ++ u.expand) d' hInv
      rw [heta] at hrun
      obtain ⟨d'', hout, hfin⟩ := ihu hus' (O ++ u.expand) d'.inc
        (if 2 ≤ (O ++ u.expand).length then some S.length else none) rfl
        (fun v hv => hwf v (by simp [hv]))
        (by
          intro us₁ v us₂ hsplit hrun'
          have := hg (u :: us₁) v us₂ (by rw [hsplit]; rfl) hrun'
          simp only [List.flatMap_cons, List.length_append] at this ⊢
          omega)
        hupre
      refine ⟨d'', hout, ?_⟩
      rw [show (u :: us').flatMap CUnit.bytes =
        u.bytes ++ us'.flatMap CUnit.bytes from by simp]
      rw [hrun]
      exact hfin

/-- C1 counterexample: for `S = []` the encoder output (after the leading
delimiter zero) is the single byte `0x01`; feeding it into a fresh decoder
never makes `decode` return a positive length — the feed loop ends with
return value `0` — and the decoder output at that point is `[0]`, not `S`. -/
theorem cobs_roundtrip_counterexample :
    (Encoder.init.encode []).out = [1] ∧
    (decodeUntil Decoder.init (Encoder.init.encode []).out).2 = 0 ∧
    (decodeUntil Decoder.init (Encoder.init.encode []).out).1.get_data ≠
      [] := by
  have h1 : groupsByZero [0] = [(true, [0])] := by
    simp [groupsByZero]
  have ha : (⟨[], [], [0]⟩ : Encoder).encLongLoop = ⟨[], [], [0]⟩ :=
    encLongLoop_fix _ (by simp)
  have hb : (⟨[], [], [0]⟩ : Encoder).zRunLoop = ⟨[], [], [0]⟩ :=
    zRunLoop_fix _ (by simp)
  have hc : (⟨[], [], [0]⟩ : Encoder).tailLoop = ⟨[1], [], []⟩ := by
    rw [tailLoop_step ⟨[], [], [0]⟩ 0 [] rfl]
    rw [tailLoop_fix _ rfl]
    rfl
  have h2 : Encoder.processZeros ⟨[], [], [0]⟩ = ⟨[1], [], []⟩ := by
    simp only [Encoder.processZeros]
    rw [ha]
    rw [if_neg (show ¬(1 < (⟨[], [], [0]⟩ : Encoder).zeros.length ∧
      (⟨[], [], [0]⟩ : Encoder).data.length ≤ 0x1e) from by simp)]
    rw [hb]
    rw [if_neg (show ¬(2 < (⟨[], [], [0]⟩ : Encoder).zeros.length ∧
      (⟨[], [], [0]⟩ : Encoder).data.length = 0) from by simp)]
    rw [hc]
  have henc : (Encoder.init.encode []).out = [1] := by
    show ((groupsByZero ([] ++ [0])).foldl Encoder.encodeStep
      Encoder.init).out = [1]
    simp only [List.nil_append]
    rw [h1]
    simp only [List.foldl_cons, List.foldl_nil]
    rw [show Encoder.encodeStep Encoder.init (true, [0]) =
      Encoder.processZeros ⟨[], [], [0]⟩ from rfl]
    rw [h2]
  refine ⟨henc, ?_, ?_⟩
  · rw [henc]
    decide
  · rw [henc]
    decide

/-- C1 (amended): for every octet sequence `S` whose length satisfies the
embedded KBI length rule — `|S| = 256 * S[0] + S[1] + 5` — feeding the
bytes of the COBS encoder output for `S` (the bytes after the leading
delimiter zero) one at a time into a fresh COBS decoder makes `decode`
return the (positive) frame length, and the decoder data at that point is
exactly `S`. -/
theorem cobs_roundtrip (S : List Nat)
    (hlen : S.length = 256 * S.getD 0 0 + S.getD 1 0 + 5) :
    (decodeUntil Decoder.init (Encoder.init.encode S).out).2 =
      (S.length : Int) ∧
    (decodeUntil Decoder.init (Encoder.init.encode S).out).1.get_data =
      S := by
  have hS5 : 5 ≤ S.length := by omega
  obtain ⟨us, hwf, hg, hout, hexp⟩ := encode_units S
  have hne : us ≠ [] := by
    intro h0
    rw [h0] at hexp
    simp at hexp
  obtain ⟨d'', hout'', hfin⟩ := decode_units S hS5 hlen us hne [] [] none
    rfl hwf
    (fun us₁ v us₂ hsplit hrun => by
      simpa using hg us₁ v us₂ hsplit hrun)
    (by simpa using hexp)
  rw [hout]
  rw [show (Decoder.init : Decoder) = ⟨[], [], 0, 0, none⟩ from rfl, hfin]
  exact ⟨rfl, hout''⟩

/-- Witness for the amended C1 at the shortest conforming frame. -/
theorem cobs_roundtrip_witness :
    ([0, 0, 0, 0, 0] : List Nat).length =
      256 * ([0, 0, 0, 0, 0] : List Nat).getD 0 0 +
        ([0, 0, 0, 0, 0] : List Nat).getD 1 0 + 5 ∧
    ((decodeUntil Decoder.init
        (Encoder.init.encode [0, 0, 0, 0, 0]).out).2 =
      (([0, 0, 0, 0, 0] : List Nat).length : Int) ∧
      (decodeUntil Decoder.init
        (Encoder.init.encode [0, 0, 0, 0, 0]).out).1.get_data =
        [0, 0, 0, 0, 0]) :=
  ⟨by decide, cobs_roundtrip [0, 0, 0, 0, 0] (by decide)⟩
